import Mathlib

/-!
Verification of the dependency-DAG builder, level scheduler, task executor and
review scoring of the agents-parallel-executor script and the ReviewAgent.

The TypeScript sources are embedded shallowly: pure functions become Lean
functions, the mutable `visited` set / `level` fields of the DAG builder become
an explicit state record, JS numbers on the integer-only code paths become
`Nat`/`Int`, and the floating-point weighted average of the review scoring is
modelled over `ℚ` (the operands are small integers, far from any rounding
boundary in the concrete cases proved here).  General recursion that JS
performs on the heap (regex scanning, memoized DFS) is step-indexed with an
explicit fuel argument so that every definition stays kernel-computable.
-/

namespace MiyabiExec

/-- GitHub issue as fetched by the executor (`interface Issue`). -/
structure Issue where
  number : Nat
  title : String
  body : String
  labels : List String
  state : String
deriving DecidableEq

/-! ## Dependency parser (`parseDependencies`)

The source recognises `/Relates to #(\d+)/i` (first match only) and
`/depends:\s*#(\d+)/gi` (all non-overlapping matches), then deduplicates with
`[...new Set(deps)]` which keeps first occurrences in order. -/

/-- JS `\s` on the ASCII range (space, tab, newline, carriage return,
vertical tab, form feed). -/
def isJsSpace (c : Char) : Bool :=
  c == ' ' || c == '\t' || c == '\n' || c == '\r' || c == '\x0b' || c == '\x0c'

/-- Source `parseInt` on a non-empty run of decimal digits. -/
def digitsToNat (ds : List Char) : Nat :=
  ds.foldl (fun acc c => acc * 10 + (c.toNat - '0'.toNat)) 0

/-- Case-insensitive literal match: drop the (lower-case) pattern `ps` from the
front of `s`, comparing case-insensitively; `none` if `s` does not start with
the pattern. -/
def dropCI : List Char → List Char → Option (List Char)
  | [], s => some s
  | _ :: _, [] => none
  | p :: ps, c :: cs => if c.toLower = p then dropCI ps cs else none

/-- The literal part of `/Relates to #(\d+)/i`, lower-cased. -/
def relatesPat : List Char := "relates to #".data

/-- Try to match `/Relates to #(\d+)/i` at the head of `s`, returning the
captured number. -/
def matchRelatesAt (s : List Char) : Option Nat :=
  match dropCI relatesPat s with
  | none => none
  | some rest =>
    let ds := rest.takeWhile Char.isDigit
    if ds.isEmpty then none else some (digitsToNat ds)

/-- Leftmost match of `/Relates to #(\d+)/i` (the single `match` call in the
source). -/
def firstRelates : List Char → Option Nat
  | [] => none
  | c :: cs =>
    match matchRelatesAt (c :: cs) with
    | some n => some n
    | none => firstRelates cs

/-- The literal head of `/depends:\s*#(\d+)/gi`, lower-cased. -/
def dependsPat : List Char := "depends:".data

/-- Try to match `/depends:\s*#(\d+)/i` at the head of `s`; on success return
the captured number and the remainder of the input after the match (the
position `matchAll` resumes from).  `\s*` is greedy, and since `#` is not a
space character greedy matching needs no backtracking here. -/
def matchDependsAt (s : List Char) : Option (Nat × List Char) :=
  match dropCI dependsPat s with
  | none => none
  | some r1 =>
    match r1.dropWhile isJsSpace with
    | '#' :: r3 =>
      let ds := r3.takeWhile Char.isDigit
      if ds.isEmpty then none
      else some (digitsToNat ds, r3.dropWhile Char.isDigit)
    | _ => none

/-- All non-overlapping matches of `/depends:\s*#(\d+)/gi`, scanning left to
right and resuming after each match, exactly as `matchAll` does.  The fuel
argument makes the recursion structural; every step consumes at least one
character, so fuel equal to the input length is always sufficient. -/
def scanDepends : Nat → List Char → List Nat
  | 0, _ => []
  | _ + 1, [] => []
  | fuel + 1, c :: cs =>
    match matchDependsAt (c :: cs) with
    | some (n, rest) => n :: scanDepends fuel rest
    | none => scanDepends fuel cs

/-- The `Relates to` reference of an issue body, if any. -/
def relatesRef (body : String) : Option Nat := firstRelates body.data

/-- The list of `depends:` references of an issue body, in match order. -/
def dependsRefs (body : String) : List Nat :=
  scanDepends body.data.length body.data

/-- Source `[...new Set(deps)]`: keep the first occurrence of each element, in
order. -/
def dedupFirst : List Nat → List Nat → List Nat
  | [], _ => []
  | a :: l, seen =>
    if a ∈ seen then dedupFirst l seen else a :: dedupFirst l (a :: seen)

/-- Source `parseDependencies(issueBody)`: the `Relates to` reference (if any)
followed by all `depends:` references, deduplicated keeping first
occurrences. -/
def parseDependencies (body : String) : List Nat :=
  dedupFirst ((match relatesRef body with | some n => [n] | none => []) ++
    dependsRefs body) []

/-! ## DAG builder (`buildDAG`)

`buildDAG` creates one node per issue, computes levels by a memoized DFS
(`calculateLevel`) over a mutable `visited` set and mutable `level` fields,
and returns the nodes stably sorted by level.  The mutable state becomes
`LevelState`; the unbounded JS recursion becomes fuel-indexed recursion where
running out of fuel yields `none` (with the fuel chosen by `buildDAG`, fuel
never runs out — see `calcLevel_total`). -/

structure DAGNode where
  id : String
  number : Nat
  title : String
  dependencies : List String
  level : Nat
deriving DecidableEq

/-- Synthetic node id: `` `issue-${n}` ``. -/
def mkNodeId (n : Nat) : String := "issue-" ++ toString n

/-- Node creation loop of `buildDAG` (levels initialised to 0). -/
def buildNodes (issues : List Issue) : List DAGNode :=
  issues.map (fun issue =>
    { id := mkNodeId issue.number
      number := issue.number
      title := issue.title
      dependencies := (parseDependencies issue.body).map mkNodeId
      level := 0 })

/-- Lookup in a `Map` built by successive `set`: the last node with the given
id wins. -/
def mapLookup (nodes : List DAGNode) (nid : String) : Option DAGNode :=
  (nodes.filter (fun n => n.id == nid)).getLast?

/-- The static dependency table of the node map (`nodeMap.get(id)?.dependencies`). -/
def depsOfNodes (nodes : List DAGNode) (nid : String) : Option (List String) :=
  (mapLookup nodes nid).map (fun n => n.dependencies)

/-- The mutable state of `calculateLevel`: the `visited` set and the `level`
fields of the node map. -/
structure LevelState where
  visited : List String
  lvl : String → Nat

/-- Assignment `node.level = v` for the node with id `nid`. -/
def setLvl (σ : LevelState) (nid : String) (v : Nat) : LevelState :=
  ⟨σ.visited, fun x => if x = nid then v else σ.lvl x⟩

/-- Source `Math.max(...)` over a list of naturals (`0` on the empty list; the source
only applies it to non-empty lists). -/
def maxList (l : List Nat) : Nat := l.foldr max 0

/-- Source `node.dependencies.map((dep) => calculateLevel(dep))`: run a stateful
computation over each list element left to right, threading the state. -/
def calcList (f : String → LevelState → Option (Nat × LevelState)) :
    List String → LevelState → Option (List Nat × LevelState)
  | [], σ => some ([], σ)
  | d :: ds, σ =>
    match f d σ with
    | none => none
    | some (v, σ1) =>
      match calcList f ds σ1 with
      | none => none
      | some (vs, σ2) => some (v :: vs, σ2)

/-- Source `calculateLevel(nodeId)`: memoized DFS assigning
`level = 1 + max(level of dependencies)`.  A node already in `visited`
immediately returns its currently stored level (`node?.level || 0`), which is
what silently cuts cycles. -/
def calcLevel (depsOf : String → Option (List String)) :
    Nat → String → LevelState → Option (Nat × LevelState)
  | 0, _, _ => none
  | fuel + 1, nid, σ =>
    if nid ∈ σ.visited then
      some (match depsOf nid with | none => 0 | some _ => σ.lvl nid, σ)
    else
      let σ1 : LevelState := ⟨nid :: σ.visited, σ.lvl⟩
      match depsOf nid with
      | none => some (0, σ1)
      | some [] => some (0, setLvl σ1 nid 0)
      | some (d :: ds) =>
        match calcList (fun d' σ' => calcLevel depsOf fuel d' σ') (d :: ds) σ1 with
        | none => none
        | some (vs, σ2) => some (maxList vs + 1, setLvl σ2 nid (maxList vs + 1))

/-- The main loop `for (const node of nodes) calculateLevel(node.id)`. -/
def runLevels (depsOf : String → Option (List String)) (fuel : Nat) :
    List String → LevelState → Option LevelState
  | [], σ => some σ
  | nid :: rest, σ =>
    match calcLevel depsOf fuel nid σ with
    | none => none
    | some (_, σ1) => runLevels depsOf fuel rest σ1

/-- Read the computed levels back into the node records.  The JS node objects
are shared with the node map, whose last-wins `set` means that among nodes
with a duplicated id only the last object is the one the DFS mutates; earlier
duplicates keep their initial level 0. -/
def setLevels (lvl : String → Nat) : List DAGNode → List DAGNode
  | [] => []
  | n :: rest =>
    (if rest.all (fun m => !(m.id == n.id)) then { n with level := lvl n.id }
     else n) :: setLevels lvl rest

/-- Every id the DFS can ever visit: node ids plus all referenced dependency
ids. -/
def allIds (nodes : List DAGNode) : Finset String :=
  (nodes.map (fun n => n.id) ++ (nodes.map (fun n => n.dependencies)).flatten).toFinset

/-- Comparator `(a, b) => a.level - b.level` as an ordering relation. -/
def levelLe (a b : DAGNode) : Prop := a.level ≤ b.level

instance : DecidableRel levelLe := fun a b => Nat.decLe a.level b.level

instance : IsTotal DAGNode levelLe := ⟨fun a b => Nat.le_total a.level b.level⟩

instance : IsTrans DAGNode levelLe := ⟨fun _ _ _ => Nat.le_trans⟩

/-- Function `buildDAG` up to (but not including) the final sort: node creation, level
computation, and write-back of levels into the node list (which JS does by
mutation). -/
def preLeveled (issues : List Issue) : Option (List DAGNode) :=
  let nodes := buildNodes issues
  match runLevels (depsOfNodes nodes) ((allIds nodes).card + 1)
      (nodes.map (fun n => n.id)) ⟨[], fun _ => 0⟩ with
  | none => none
  | some σ => some (setLevels σ.lvl nodes)

/-- Source `buildDAG(issues)`: leveled nodes sorted ascending by level.  JS
`Array.prototype.sort` is stable, hence equal on lists to insertion sort with
the comparator's `≤`. -/
def buildDAG (issues : List Issue) : Option (List DAGNode) :=
  (preLeveled issues).map (fun nodes => nodes.insertionSort levelLe)

/-! ### Specification-side notions for the DFS level computation -/

/-- Dependency edge of the node map: `Edge depsOf a b` holds when `b` occurs
among the dependencies of the node with id `a`. -/
def Edge (depsOf : String → Option (List String)) (a b : String) : Prop :=
  ∃ ds, depsOf a = some ds ∧ b ∈ ds

/-- Acyclicity of the dependency relation: no id reaches itself through a
non-empty chain of dependency edges. -/
def Acyclic (depsOf : String → Option (List String)) : Prop :=
  ∀ x, ¬Relation.TransGen (Edge depsOf) x x

/-- Acyclicity of the dependency references parsed from the issues. -/
def IssuesAcyclic (issues : List Issue) : Prop :=
  Acyclic (depsOfNodes (buildNodes issues))

/-- The value a recursive `calculateLevel` call reports for `d` once `d` is
visited: the stored level for ids present in the node map, 0 for absent
ids. -/
def resolvedLvl (depsOf : String → Option (List String)) (σ : LevelState)
    (d : String) : Nat :=
  match depsOf d with
  | some _ => σ.lvl d
  | none => 0

/-- Local level equation of a finished node: no dependencies → level 0,
otherwise level = max over the dependencies' resolved levels, plus one. -/
def CorrectAt (depsOf : String → Option (List String)) (σ : LevelState)
    (nid : String) : Prop :=
  ∀ ds, depsOf nid = some ds →
    (ds = [] → σ.lvl nid = 0) ∧
    (ds ≠ [] → σ.lvl nid = maxList (ds.map (resolvedLvl depsOf σ)) + 1)

/-- DFS invariant: grey ids (in progress, on the call stack) are visited, and
every visited non-grey (finished) id satisfies its level equation and has all
its dependencies visited. -/
structure DFSInv (depsOf : String → Option (List String)) (σ : LevelState)
    (G : List String) : Prop where
  grey_visited : ∀ g ∈ G, g ∈ σ.visited
  done_correct : ∀ nid, nid ∈ σ.visited → nid ∉ G → CorrectAt depsOf σ nid
  done_deps_visited : ∀ nid ds, depsOf nid = some ds → nid ∈ σ.visited →
    nid ∉ G → ∀ d ∈ ds, d ∈ σ.visited

/-- Postcondition of one `calculateLevel` call. -/
structure CalcOut (depsOf : String → Option (List String)) (σ σ' : LevelState)
    (nid : String) (v : Nat) : Prop where
  mono : ∀ x ∈ σ.visited, x ∈ σ'.visited
  visited_self : nid ∈ σ'.visited
  stable : ∀ x ∈ σ.visited, σ'.lvl x = σ.lvl x
  value : v = resolvedLvl depsOf σ' nid
  reach_new : ∀ x ∈ σ'.visited, x ∉ σ.visited →
    Relation.ReflTransGen (Edge depsOf) nid x

/-- Postcondition of mapping `calculateLevel` over a dependency list. -/
structure CalcListOut (depsOf : String → Option (List String)) (σ σ' : LevelState)
    (ds : List String) (vs : List Nat) : Prop where
  mono : ∀ x ∈ σ.visited, x ∈ σ'.visited
  deps_visited : ∀ d ∈ ds, d ∈ σ'.visited
  stable : ∀ x ∈ σ.visited, σ'.lvl x = σ.lvl x
  values : vs = ds.map (resolvedLvl depsOf σ')
  reach_new : ∀ x ∈ σ'.visited, x ∉ σ.visited →
    ∃ d ∈ ds, Relation.ReflTransGen (Edge depsOf) d x

/-- Is the referenced id present in the node map (dependency "resolvable")? -/
def presentIn (issues : List Issue) (nid : String) : Bool :=
  (depsOfNodes (buildNodes issues) nid).isSome

/-- The level recorded in the output list for the node with id `nid`
(0 if absent). -/
def levelIn (out : List DAGNode) (nid : String) : Nat :=
  match out.find? (fun n => n.id == nid) with
  | some n => n.level
  | none => 0

/-- The resolved level of a dependency reference, read off the output list:
the level of the referenced node when present in the node map, 0 when the
reference is unresolvable. -/
def resolvedOutLvl (issues : List Issue) (out : List DAGNode) (d : String) : Nat :=
  if presentIn issues d then levelIn out d else 0

/-! ## Level scheduler (`executeDAG`)

`executeDAG` groups the DAG by level, then for `level = 0 .. maxLevel` slices
that level's nodes into chunks of `concurrency` nodes and awaits
`Promise.all` on each chunk in turn.  A rejecting chunk propagates out of both
loops, so execution is: chunks in schedule order until the first failing
chunk, inclusive. -/

/-- Source `Math.max(...levels.keys())`.  For an empty DAG JS yields `-Infinity` and
runs no iteration; here `0` with nothing at any level gives the same (empty)
schedule. -/
def maxLevelOf (dag : List DAGNode) : Nat :=
  dag.foldl (fun m n => max m n.level) 0

/-- The slicing loop `for (i = 0; i < nodes.length; i += concurrency)
batches.push(nodes.slice(i, i + concurrency))`.  Fuel-indexed (fuel
`l.length` suffices whenever `0 < k`; for `k = 0` the JS loop would not
terminate). -/
def chunksOfAux (k : Nat) : Nat → List DAGNode → List (List DAGNode)
  | _, [] => []
  | 0, _ :: _ => []
  | fuel + 1, x :: xs => (x :: xs).take k :: chunksOfAux k fuel ((x :: xs).drop k)

/-- Partition a level's node list into consecutive chunks of size `k`. -/
def chunksOf (k : Nat) (l : List DAGNode) : List (List DAGNode) :=
  chunksOfAux k l.length l

/-- The full chunk schedule of `executeDAG`: for each level in ascending
order, that level's chunks. -/
def executeSchedule (dag : List DAGNode) (k : Nat) : List (List DAGNode) :=
  ((List.range (maxLevelOf dag + 1)).map
    (fun lv => chunksOf k (dag.filter (fun n => n.level == lv)))).flatten

/-- Chunked execution: await each chunk's `Promise.all` in schedule order; a
chunk containing a failing node rejects, and nothing after it starts.
`ok n = false` abstracts "this node's fetch or pipeline rejected".  Returns
the chunks that were started, and whether the whole run succeeded. -/
def runChunks (ok : DAGNode → Bool) : List (List DAGNode) → List (List DAGNode) × Bool
  | [] => ([], true)
  | c :: rest =>
    if c.all ok then
      let r := runChunks ok rest
      (c :: r.1, r.2)
    else ([c], false)

/-- Function `executeDAG` with per-node outcomes abstracted by `ok`. -/
def executeDAG (dag : List DAGNode) (k : Nat) (ok : DAGNode → Bool) :
    List (List DAGNode) × Bool :=
  runChunks ok (executeSchedule dag k)

/-! ## ReviewAgent (`review-agent.ts`)

The four checks call external tools (`tsc`, `eslint`, file reads); what those
tools report is abstracted into `ReviewEnv`, and the scoring arithmetic the
agent performs on top of it is embedded.  JS `Math.round` on doubles is
modelled as exact rounding over `ℚ` (round half toward positive infinity). -/

/-- Abstracted findings of the external tools used by `ReviewAgent.review`. -/
structure ReviewEnv where
  /-- Whether `npx tsc --noEmit` exited 0. -/
  tscOk : Bool
  /-- number of `error TS…:` matches in the tsc output when it failed; the
  source counts `errors = matches ? matches.length : 1`. -/
  tsMatchCount : Nat
  /-- eslint ran (if its invocation threw, the check is skipped with score
  100). -/
  eslintRan : Bool
  eslintErrors : Nat
  eslintWarnings : Nat
  /-- total dangerous-pattern matches over all reviewed files. -/
  vulnerabilities : Nat
  /-- sum over files of `1 + #if + #for + #while + #case + #catch`. -/
  totalComplexity : Nat
  fileCount : Nat
deriving DecidableEq

/-- Source `private threshold: number = 80`. -/
def reviewThreshold : ℤ := 80

/-- JS `Math.round`: round half toward positive infinity. -/
def jsRound (q : ℚ) : ℤ := ⌊q + 1 / 2⌋

/-- Source `checkTypeScript` score: 100 when tsc passes, else
`Math.max(0, 100 - errors * 10)`. -/
def checkTypeScriptScore (env : ReviewEnv) : ℤ :=
  if env.tscOk then 100
  else
    max 0 (100 - (if env.tsMatchCount = 0 then 1 else (env.tsMatchCount : ℤ)) * 10)

/-- Source `checkESLint` score: 100 when skipped or clean, else
`Math.max(0, 100 - errors * 5 - warnings * 2)`. -/
def checkESLintScore (env : ReviewEnv) : ℤ :=
  if !env.eslintRan then 100
  else if env.eslintErrors = 0 ∧ env.eslintWarnings = 0 then 100
  else max 0 (100 - (env.eslintErrors : ℤ) * 5 - (env.eslintWarnings : ℤ) * 2)

/-- Source `checkSecurity` score: `Math.max(0, 100 - vulnerabilities * 10)`. -/
def checkSecurityScore (env : ReviewEnv) : ℤ :=
  if env.vulnerabilities = 0 then 100
  else max 0 (100 - (env.vulnerabilities : ℤ) * 10)

/-- Average `totalComplexity / fileCount` (0 when no file was readable). -/
def avgComplexity (env : ReviewEnv) : ℚ :=
  if env.fileCount = 0 then 0
  else (env.totalComplexity : ℚ) / (env.fileCount : ℚ)

/-- Source `checkComplexity` score: 100 for average ≤ 10, else
`Math.max(0, 100 - (avg - 10) * 10)`, rounded. -/
def checkComplexityScore (env : ReviewEnv) : ℤ :=
  jsRound (if 10 < avgComplexity env then
    max 0 (100 - (avgComplexity env - 10) * 10) else 100)

/-- The weighted total of `ReviewAgent.review`:
`Math.round(ts * 0.3 + eslint * 0.3 + security * 0.3 + complexity * 0.1)`. -/
def reviewScore (env : ReviewEnv) : ℤ :=
  jsRound ((checkTypeScriptScore env : ℚ) * (3 / 10) +
    (checkESLintScore env : ℚ) * (3 / 10) +
    (checkSecurityScore env : ℚ) * (3 / 10) +
    (checkComplexityScore env : ℚ) * (1 / 10))

/-- Source `passed = totalScore >= this.threshold`. -/
def reviewPassed (env : ReviewEnv) : Bool :=
  decide (reviewThreshold ≤ reviewScore env)

/-! ## Task executor (`executeIssue`)

The fixed 4-stage pipeline (classify → generate → review → publish).  Every
awaited external call is abstracted as an `Except String` outcome in
`ExecEnv`; the control flow between them, including the explicit `throw`s and
the catch-all that logs a failure block and re-throws, is embedded. -/

structure CodeFile where
  path : String
  content : String
  description : String
deriving DecidableEq

structure CodeGenOut where
  success : Bool
  error : String
  files : List CodeFile
  summary : String
deriving DecidableEq

structure PROut where
  success : Bool
  error : String
  prNumber : Option Nat
  prUrl : String
deriving DecidableEq

/-- Outcomes of the external collaborator calls of one node's pipeline;
`Except.error m` models the awaited call rejecting with message `m`. -/
structure ExecEnv where
  analyze : Except String Unit
  addLabels : Except String Unit
  codeGen : Except String CodeGenOut
  writeFiles : Except String Unit
  reviewInputs : Except String ReviewEnv
  pr : Except String PROut
  prLabels : Except String Unit

/-- The body of `executeIssue`'s `try` block, producing the review score used
in the success log. -/
def runPipeline (env : ExecEnv) (dryRun : Bool) : Except String ℤ := do
  let _ ← env.analyze
  if !dryRun then
    let _ ← env.addLabels
  let cg ← env.codeGen
  if !cg.success then
    throw ("Code generation failed: " ++ cg.error)
  if !dryRun then
    let _ ← env.writeFiles
  let renv ← env.reviewInputs
  if !reviewPassed renv then
    throw "Code review failed - quality threshold not met"
  if !dryRun then
    let p ← env.pr
    if !p.success then
      throw ("PR creation failed: " ++ p.error)
    match p.prNumber with
    | some _ =>
      let _ ← env.prLabels
    | none => pure ()
  pure (reviewScore renv)

/-- One appended block of the per-day execution log. -/
structure LogEntry where
  issueNumber : Nat
  duration : Nat
  ok : Bool
  message : String
deriving DecidableEq

/-- Source `executeIssue`: run the pipeline; on success append a success block, on
any stage throwing append a failure block with the duration-to-failure and
the error message, then re-raise.  `duration` abstracts the `Date.now()`
elapsed time. -/
def executeIssue (issue : Issue) (env : ExecEnv) (dryRun : Bool) (duration : Nat) :
    List LogEntry × Except String ℤ :=
  match runPipeline env dryRun with
  | Except.ok score => ([⟨issue.number, duration, true, ""⟩], Except.ok score)
  | Except.error m => ([⟨issue.number, duration, false, m⟩], Except.error m)

/-! ## Theorems -/

theorem mem_dedupFirst (x : Nat) :
    ∀ (l seen : List Nat), x ∈ dedupFirst l seen ↔ x ∈ l ∧ x ∉ seen := by
  intro l
  induction l with
  | nil => intro seen; simp [dedupFirst]
  | cons a l ih =>
    intro seen
    by_cases ha : a ∈ seen
    · simp only [dedupFirst, if_pos ha, ih]
      constructor
      · rintro ⟨hx, hns⟩
        exact ⟨List.mem_cons_of_mem _ hx, hns⟩
      · rintro ⟨hx, hns⟩
        rcases List.mem_cons.mp hx with rfl | hx
        · exact absurd ha hns
        · exact ⟨hx, hns⟩
    · simp only [dedupFirst, if_neg ha]
      constructor
      · intro hx
        rcases List.mem_cons.mp hx with rfl | hx
        · exact ⟨List.mem_cons_self _ _, ha⟩
        · rcases (ih _).mp hx with ⟨h1, h2⟩
          refine ⟨List.mem_cons_of_mem _ h1, fun hc => h2 ?_⟩
          exact List.mem_cons_of_mem _ hc
      · rintro ⟨hx, hns⟩
        rcases List.mem_cons.mp hx with rfl | hx
        · exact List.mem_cons_self _ _
        · by_cases hxa : x = a
          · subst hxa; exact List.mem_cons_self _ _
          · refine List.mem_cons_of_mem _ ((ih _).mpr ⟨hx, fun hc => ?_⟩)
            rcases List.mem_cons.mp hc with h | h
            · exact hxa h
            · exact hns h

theorem nodup_dedupFirst : ∀ (l seen : List Nat), (dedupFirst l seen).Nodup := by
  intro l
  induction l with
  | nil => intro seen; simp [dedupFirst]
  | cons a l ih =>
    intro seen
    by_cases ha : a ∈ seen
    · simpa [dedupFirst, if_pos ha] using ih seen
    · simp only [dedupFirst, if_neg ha]
      refine List.nodup_cons.mpr ⟨fun hc => ?_, ih _⟩
      exact ((mem_dedupFirst a l (a :: seen)).mp hc).2 (List.mem_cons_self _ _)

/-- C4: `parseDependencies` returns a duplicate-free list made of the first
`Relates to #N` reference (if any) plus all `depends: #N` references, is empty
when no pattern matches, and parsing `"depends: #3\ndepends: #3"` yields
exactly `[3]`. -/
theorem parseDependencies_spec (body : String) :
    (parseDependencies body).Nodup ∧
    (∀ n, n ∈ parseDependencies body ↔
      relatesRef body = some n ∨ n ∈ dependsRefs body) ∧
    (relatesRef body = none → dependsRefs body = [] →
      parseDependencies body = []) ∧
    parseDependencies "depends: #3\ndepends: #3" = [3] := by
  refine ⟨nodup_dedupFirst _ _, ?_, ?_, by decide⟩
  · intro n
    rw [parseDependencies, mem_dedupFirst]
    cases h : relatesRef body with
    | none => simp
    | some m =>
      simp only [List.mem_append, List.mem_singleton, List.not_mem_nil,
        not_false_iff, and_true, Option.some.injEq]
      constructor
      · rintro (rfl | h2)
        · exact Or.inl rfl
        · exact Or.inr h2
      · rintro (h1 | h2)
        · exact Or.inl h1.symm
        · exact Or.inr h2
  · intro h1 h2
    rw [parseDependencies, h1, h2]
    rfl

theorem jsRound_nonneg {q : ℚ} (h : 0 ≤ q) : 0 ≤ jsRound q := by
  rw [jsRound]
  exact Int.le_floor.mpr (by push_cast; linarith)

theorem jsRound_le_100 {q : ℚ} (h : q ≤ 100) : jsRound q ≤ 100 := by
  rw [jsRound]
  have : ⌊q + 1 / 2⌋ < 101 := Int.floor_lt.mpr (by push_cast; linarith)
  omega

theorem checkTypeScriptScore_bounds (env : ReviewEnv) :
    0 ≤ checkTypeScriptScore env ∧ checkTypeScriptScore env ≤ 100 := by
  rw [checkTypeScriptScore]
  split_ifs with h1 h2
  · norm_num
  · norm_num
  · have hc : (0 : ℤ) ≤ (env.tsMatchCount : ℤ) * 10 := by positivity
    exact ⟨le_max_left 0 _, max_le (by norm_num) (by linarith)⟩

theorem checkESLintScore_bounds (env : ReviewEnv) :
    0 ≤ checkESLintScore env ∧ checkESLintScore env ≤ 100 := by
  rw [checkESLintScore]
  split_ifs with h1 h2
  · norm_num
  · norm_num
  · have he : (0 : ℤ) ≤ (env.eslintErrors : ℤ) * 5 := by positivity
    have hw : (0 : ℤ) ≤ (env.eslintWarnings : ℤ) * 2 := by positivity
    exact ⟨le_max_left 0 _, max_le (by norm_num) (by linarith)⟩

theorem checkSecurityScore_bounds (env : ReviewEnv) :
    0 ≤ checkSecurityScore env ∧ checkSecurityScore env ≤ 100 := by
  rw [checkSecurityScore]
  split_ifs with h1
  · norm_num
  · have hv : (0 : ℤ) ≤ (env.vulnerabilities : ℤ) * 10 := by positivity
    exact ⟨le_max_left 0 _, max_le (by norm_num) (by linarith)⟩

theorem checkComplexityScore_bounds (env : ReviewEnv) :
    0 ≤ checkComplexityScore env ∧ checkComplexityScore env ≤ 100 := by
  rw [checkComplexityScore]
  split_ifs with h1
  · have harg : (0 : ℚ) ≤ max 0 (100 - (avgComplexity env - 10) * 10) := le_max_left 0 _
    have harg2 : max 0 (100 - (avgComplexity env - 10) * 10) ≤ (100 : ℚ) :=
      max_le (by norm_num) (by linarith)
    exact ⟨jsRound_nonneg harg, jsRound_le_100 harg2⟩
  · exact ⟨jsRound_nonneg (by norm_num), jsRound_le_100 (by norm_num)⟩

/-- C7: `ReviewAgent.review` reports `passed = true` exactly when the
computed total score reaches the fixed threshold 80; tool findings producing
a total score of exactly 80 pass and ones producing 79 fail. -/
theorem review_passed_iff_threshold (env : ReviewEnv) :
    (reviewPassed env = true ↔ reviewThreshold ≤ reviewScore env) ∧
    reviewThreshold = 80 ∧
    reviewScore ⟨true, 0, true, 12, 3, 0, 0, 0⟩ = 80 ∧
    reviewPassed ⟨true, 0, true, 12, 3, 0, 0, 0⟩ = true ∧
    reviewScore ⟨true, 0, true, 14, 0, 0, 0, 0⟩ = 79 ∧
    reviewPassed ⟨true, 0, true, 14, 0, 0, 0, 0⟩ = false := by
  have h80 : reviewScore ⟨true, 0, true, 12, 3, 0, 0, 0⟩ = 80 := by
    simp only [reviewScore, checkTypeScriptScore, checkESLintScore, checkSecurityScore,
      checkComplexityScore, avgComplexity, jsRound]
    norm_num [Int.floor_eq_iff]
  have h79 : reviewScore ⟨true, 0, true, 14, 0, 0, 0, 0⟩ = 79 := by
    simp only [reviewScore, checkTypeScriptScore, checkESLintScore, checkSecurityScore,
      checkComplexityScore, avgComplexity, jsRound]
    norm_num [Int.floor_eq_iff]
  refine ⟨?_, by decide, h80, ?_, h79, ?_⟩
  · simp [reviewPassed]
  · rw [reviewPassed, h80]; decide
  · rw [reviewPassed, h79]; decide

/-- C8 (counterexample): the claim that each of the four sub-scores is
reduced by a fixed penalty per detected defect fails for the complexity
sub-score: with total complexity 41 over 4 files (average 10.25) it computes
98, a value no whole number of detected defects at the check's fixed penalty
of 10 can produce — the penalized quantity is the fractional excess of the
average complexity over 10, not a defect count. -/
theorem review_complexity_not_per_defect :
    checkComplexityScore ⟨true, 0, true, 0, 0, 0, 41, 4⟩ = 98 ∧
    ¬∃ k : ℕ, (98 : ℤ) = max 0 (100 - (k : ℤ) * 10) := by
  constructor
  · have havg : avgComplexity ⟨true, 0, true, 0, 0, 0, 41, 4⟩ = 41 / 4 := by
      rw [avgComplexity]
      norm_num
    rw [checkComplexityScore, havg, if_pos (by norm_num),
      max_eq_right (by norm_num : (0 : ℚ) ≤ 100 - (41 / 4 - 10) * 10), jsRound]
    norm_num [Int.floor_eq_iff]
  · rintro ⟨k, hk⟩
    omega

/-- C8 (amended): the overall review score is the rounded weighted sum
(30% / 30% / 30% / 10%) of the four sub-scores; the TypeScript, ESLint and
security sub-scores start at 100, lose a fixed penalty per detected defect
(10 per TypeScript error, 5 per ESLint error, 2 per ESLint warning, 10 per
vulnerability) and are floored at 0; the complexity sub-score starts at 100
and loses 10 points per unit of average complexity above 10 — a possibly
fractional quantity, rounded — floored at 0; and every sub-score as well as
the overall score lies in [0, 100]. -/
theorem review_score_formula (env : ReviewEnv) :
    reviewScore env =
      jsRound (((checkTypeScriptScore env : ℚ) * 3 + (checkESLintScore env : ℚ) * 3 +
        (checkSecurityScore env : ℚ) * 3 + (checkComplexityScore env : ℚ)) / 10) ∧
    (env.tscOk = false → checkTypeScriptScore env =
      max 0 (100 - max 1 (env.tsMatchCount : ℤ) * 10)) ∧
    (env.tscOk = true → checkTypeScriptScore env = 100) ∧
    (env.eslintRan = true → checkESLintScore env =
      max 0 (100 - (env.eslintErrors : ℤ) * 5 - (env.eslintWarnings : ℤ) * 2)) ∧
    checkSecurityScore env = max 0 (100 - (env.vulnerabilities : ℤ) * 10) ∧
    (10 < avgComplexity env → checkComplexityScore env =
      jsRound (max 0 (100 - (avgComplexity env - 10) * 10))) ∧
    (avgComplexity env ≤ 10 → checkComplexityScore env = 100) ∧
    (0 ≤ checkTypeScriptScore env ∧ checkTypeScriptScore env ≤ 100) ∧
    (0 ≤ checkESLintScore env ∧ checkESLintScore env ≤ 100) ∧
    (0 ≤ checkSecurityScore env ∧ checkSecurityScore env ≤ 100) ∧
    (0 ≤ checkComplexityScore env ∧ checkComplexityScore env ≤ 100) ∧
    (0 ≤ reviewScore env ∧ reviewScore env ≤ 100) := by
  have hts := checkTypeScriptScore_bounds env
  have hes := checkESLintScore_bounds env
  have hsec := checkSecurityScore_bounds env
  have hcomp := checkComplexityScore_bounds env
  refine ⟨?_, ?_, ?_, ?_, ?_, ?_, ?_, hts, hes, hsec, hcomp, ?_, ?_⟩
  · rw [reviewScore]
    congr 1
    ring
  · intro h
    rw [checkTypeScriptScore, if_neg (by simp [h])]
    congr 2
    rcases Nat.eq_zero_or_pos env.tsMatchCount with h0 | h0
    · simp [h0]
    · rw [if_neg (by omega)]
      have : (1 : ℤ) ≤ (env.tsMatchCount : ℤ) := by exact_mod_cast h0
      omega
  · intro h; rw [checkTypeScriptScore, if_pos h]
  · intro h
    rw [checkESLintScore, if_neg (by simp [h])]
    split_ifs with h2
    · rcases h2 with ⟨h2a, h2b⟩
      simp [h2a, h2b]
    · rfl
  · rw [checkSecurityScore]
    split_ifs with h1
    · simp [h1]
    · rfl
  · intro h
    rw [checkComplexityScore, if_pos h]
  · intro h
    rw [checkComplexityScore, if_neg (not_lt.mpr h), jsRound]
    norm_num [Int.floor_eq_iff]
  · apply jsRound_nonneg
    have : (0 : ℚ) ≤ (checkTypeScriptScore env : ℚ) := by exact_mod_cast hts.1
    have : (0 : ℚ) ≤ (checkESLintScore env : ℚ) := by exact_mod_cast hes.1
    have : (0 : ℚ) ≤ (checkSecurityScore env : ℚ) := by exact_mod_cast hsec.1
    have : (0 : ℚ) ≤ (checkComplexityScore env : ℚ) := by exact_mod_cast hcomp.1
    positivity
  · apply jsRound_le_100
    have h1 : (checkTypeScriptScore env : ℚ) ≤ 100 := by exact_mod_cast hts.2
    have h2 : (checkESLintScore env : ℚ) ≤ 100 := by exact_mod_cast hes.2
    have h3 : (checkSecurityScore env : ℚ) ≤ 100 := by exact_mod_cast hsec.2
    have h4 : (checkComplexityScore env : ℚ) ≤ 100 := by exact_mod_cast hcomp.2
    linarith

/-- C10: whenever any stage of a node's pipeline throws, `executeIssue`
appends exactly one failure record carrying the duration-to-failure and the
error message to the execution log, and re-raises that same error; no failure
goes unlogged. -/
theorem executeIssue_logs_failures (issue : Issue) (env : ExecEnv) (dryRun : Bool)
    (duration : Nat) (m : String)
    (h : (executeIssue issue env dryRun duration).2 = Except.error m) :
    (executeIssue issue env dryRun duration).1 =
      [⟨issue.number, duration, false, m⟩] := by
  cases hp : runPipeline env dryRun with
  | ok s => simp [executeIssue, hp] at h
  | error e =>
    simp only [executeIssue, hp] at h ⊢
    simp only [Except.error.injEq] at h
    rw [h]

/-- Witness for C10 at a concrete failing pipeline (code generation returned
`success: false`). -/
theorem executeIssue_logs_failures_witness :
    (executeIssue ⟨7, "t", "", [], "open"⟩
      ⟨Except.ok (), Except.ok (), Except.ok ⟨false, "boom", [], "s"⟩, Except.ok (),
        Except.ok ⟨true, 0, true, 0, 0, 0, 0, 0⟩, Except.ok ⟨true, "", some 5, "url"⟩,
        Except.ok ()⟩ false 123).1 =
      [⟨7, 123, false, "Code generation failed: boom"⟩] :=
  executeIssue_logs_failures _ _ _ _ _ rfl

theorem chunksOfAux_nil (k fuel : Nat) : chunksOfAux k fuel [] = [] := by
  cases fuel <;> rfl

theorem chunksOfAux_spec (k : Nat) (hk : 0 < k) :
    ∀ fuel (l : List DAGNode), l.length ≤ fuel →
      (chunksOfAux k fuel l).flatten = l ∧
      (∀ c ∈ chunksOfAux k fuel l, c.length ≤ k ∧ c ≠ []) ∧
      (∀ c ∈ (chunksOfAux k fuel l).dropLast, c.length = k) := by
  intro fuel
  induction fuel with
  | zero =>
    intro l hl
    have hnil : l = [] := List.length_eq_zero.mp (Nat.le_zero.mp hl)
    subst hnil
    simp [chunksOfAux]
  | succ fuel ih =>
    intro l hl
    match l with
    | [] => simp [chunksOfAux]
    | x :: xs =>
      have hdrop : ((x :: xs).drop k).length ≤ fuel := by
        rw [List.length_drop]
        simp only [List.length_cons] at hl ⊢
        omega
      obtain ⟨ihf, ihm, ihd⟩ := ih _ hdrop
      have hstep : chunksOfAux k (fuel + 1) (x :: xs) =
          (x :: xs).take k :: chunksOfAux k fuel ((x :: xs).drop k) := rfl
      have htake_ne : (x :: xs).take k ≠ [] := by
        cases k with
        | zero => exact absurd hk (by omega)
        | succ k' => simp [List.take_succ_cons]
      refine ⟨?_, ?_, ?_⟩
      · rw [hstep, List.flatten_cons, ihf, List.take_append_drop]
      · intro c hc
        rw [hstep, List.mem_cons] at hc
        rcases hc with rfl | hc
        · exact ⟨by simp, htake_ne⟩
        · exact ihm c hc
      · intro c hc
        rw [hstep] at hc
        cases hrest : chunksOfAux k fuel ((x :: xs).drop k) with
        | nil => rw [hrest] at hc; simp [List.dropLast_single] at hc
        | cons c' cs' =>
          rw [hrest, List.dropLast_cons₂, List.mem_cons] at hc
          rcases hc with rfl | hc
          · -- the remainder is non-empty, so this chunk is a full slice
            have hne : (x :: xs).drop k ≠ [] := by
              intro hdn
              rw [hdn, chunksOfAux_nil] at hrest
              exact absurd hrest (by simp)
            have hlen : k < (x :: xs).length := by
              by_contra hcon
              exact hne (List.drop_eq_nil_of_le (by omega))
            simpa using Nat.min_eq_left (Nat.le_of_lt hlen)
          · exact ihd c (by rw [hrest]; exact hc)

theorem chunksOf_spec (k : Nat) (hk : 0 < k) (l : List DAGNode) :
    (chunksOf k l).flatten = l ∧
    (∀ c ∈ chunksOf k l, c.length ≤ k ∧ c ≠ []) ∧
    (∀ c ∈ (chunksOf k l).dropLast, c.length = k) :=
  chunksOfAux_spec k hk l.length l le_rfl

theorem mem_of_mem_chunk {k lv : Nat} (hk : 0 < k) {dag c : List DAGNode} {n : DAGNode}
    (hc : c ∈ chunksOf k (dag.filter (fun n => n.level == lv))) (hn : n ∈ c) :
    n ∈ dag ∧ n.level = lv := by
  have hmem : n ∈ (chunksOf k (dag.filter (fun n => n.level == lv))).flatten :=
    List.mem_flatten.mpr ⟨c, hc, hn⟩
  rw [(chunksOf_spec k hk _).1] at hmem
  have := List.mem_filter.mp hmem
  exact ⟨this.1, by simpa using this.2⟩

theorem mem_schedule_aux {k : Nat} (hk : 0 < k) (dag : List DAGNode) :
    ∀ (N : Nat) (n : DAGNode),
      n ∈ (((List.range N).map
        (fun lv => chunksOf k (dag.filter (fun n => n.level == lv)))).flatten).flatten →
      n ∈ dag ∧ n.level < N := by
  intro N n hn
  rw [List.mem_flatten] at hn
  obtain ⟨c, hc, hnc⟩ := hn
  rw [List.mem_flatten] at hc
  obtain ⟨cl, hcl, hccl⟩ := hc
  rw [List.mem_map] at hcl
  obtain ⟨lv, hlv, rfl⟩ := hcl
  obtain ⟨hdag, hlev⟩ := mem_of_mem_chunk hk hccl hnc
  exact ⟨hdag, hlev ▸ List.mem_range.mp hlv⟩

theorem sorted_of_const {l : List Nat} {N : Nat} (h : ∀ x ∈ l, x = N) :
    List.Sorted (fun a b => a ≤ b) l := by
  induction l with
  | nil => simp
  | cons a l ih =>
    rw [List.sorted_cons]
    refine ⟨fun b hb => ?_, ih fun x hx => h x (List.mem_cons_of_mem _ hx)⟩
    rw [h a (List.mem_cons_self _ _), h b (List.mem_cons_of_mem _ hb)]

theorem schedule_aux_sorted {k : Nat} (hk : 0 < k) (dag : List DAGNode) :
    ∀ N : Nat, List.Sorted (fun a b => a ≤ b)
      (((((List.range N).map
        (fun lv => chunksOf k (dag.filter (fun n => n.level == lv)))).flatten).flatten).map
        (fun n => n.level)) := by
  intro N
  induction N with
  | zero => simp
  | succ N ih =>
    rw [List.range_succ, List.map_append, List.flatten_append, List.flatten_append,
      List.map_append]
    refine List.pairwise_append.mpr ⟨ih, ?_, ?_⟩
    · -- all nodes of level-N chunks have level N, so the block is constant
      have hconst : ∀ x ∈ ((([N].map
          (fun lv => chunksOf k (dag.filter (fun n => n.level == lv)))).flatten).flatten).map
            (fun n => n.level), x = N := by
        intro x hx
        rw [List.mem_map] at hx
        obtain ⟨n, hn, rfl⟩ := hx
        simp only [List.map_cons, List.map_nil, List.flatten_cons, List.flatten_nil,
          List.append_nil] at hn
        rw [List.mem_flatten] at hn
        obtain ⟨c, hc, hnc⟩ := hn
        exact (mem_of_mem_chunk hk hc hnc).2
      exact sorted_of_const hconst
    · intro a ha b hb
      rw [List.mem_map] at ha hb
      obtain ⟨na, hna, rfl⟩ := ha
      obtain ⟨nb, hnb, rfl⟩ := hb
      have h1 := (mem_schedule_aux hk dag N na hna).2
      simp only [List.map_cons, List.map_nil, List.flatten_cons, List.flatten_nil,
        List.append_nil] at hnb
      rw [List.mem_flatten] at hnb
      obtain ⟨c, hc, hnc⟩ := hnb
      have h2 := (mem_of_mem_chunk hk hc hnc).2
      omega

/-- C5: the schedule of `executeDAG` visits levels in ascending order and
slices each level's node list into consecutive chunks of at most
`concurrency` nodes — full chunks of exactly `concurrency` nodes except for a
possibly smaller final chunk; three mutually independent nodes with
concurrency 2 produce a chunk of 2 followed by a chunk of 1. -/
theorem executeDAG_chunking (dag : List DAGNode) (k : Nat) (hk : 0 < k) :
    (∀ c ∈ executeSchedule dag k, c.length ≤ k ∧ c ≠ []) ∧
    (∀ lv : Nat,
      (chunksOf k (dag.filter (fun n => n.level == lv))).flatten =
        dag.filter (fun n => n.level == lv) ∧
      (∀ c ∈ (chunksOf k (dag.filter (fun n => n.level == lv))).dropLast,
        c.length = k)) ∧
    List.Sorted (fun a b => a ≤ b)
      ((executeSchedule dag k).flatten.map (fun n => n.level)) ∧
    executeSchedule [⟨"issue-3", 3, "C", [], 0⟩, ⟨"issue-4", 4, "D", [], 0⟩,
        ⟨"issue-5", 5, "E", [], 0⟩] 2 =
      [[⟨"issue-3", 3, "C", [], 0⟩, ⟨"issue-4", 4, "D", [], 0⟩],
       [⟨"issue-5", 5, "E", [], 0⟩]] := by
  refine ⟨?_, ?_, ?_, by decide⟩
  · intro c hc
    rw [executeSchedule, List.mem_flatten] at hc
    obtain ⟨cl, hcl, hccl⟩ := hc
    rw [List.mem_map] at hcl
    obtain ⟨lv, _, rfl⟩ := hcl
    exact (chunksOf_spec k hk _).2.1 c hccl
  · intro lv
    exact ⟨(chunksOf_spec k hk _).1, (chunksOf_spec k hk _).2.2⟩
  · exact schedule_aux_sorted hk dag (maxLevelOf dag + 1)

/-- Witness for C5 at concurrency 2 on three independent level-0 nodes. -/
theorem executeDAG_chunking_witness :
    executeSchedule [⟨"issue-3", 3, "C", [], 0⟩, ⟨"issue-4", 4, "D", [], 0⟩,
        ⟨"issue-5", 5, "E", [], 0⟩] 2 =
      [[⟨"issue-3", 3, "C", [], 0⟩, ⟨"issue-4", 4, "D", [], 0⟩],
       [⟨"issue-5", 5, "E", [], 0⟩]] :=
  (executeDAG_chunking [] 2 (by decide)).2.2.2

theorem runChunks_take (ok : DAGNode → Bool) :
    ∀ chunks, (runChunks ok chunks).1 = chunks.take (runChunks ok chunks).1.length := by
  intro chunks
  induction chunks with
  | nil => rfl
  | cons c rest ih =>
    by_cases hall : c.all ok
    · simp only [runChunks, hall, if_true]
      rw [List.length_cons, List.take_succ_cons]
      exact congrArg (c :: ·) ih
    · rw [Bool.not_eq_true] at hall
      simp only [runChunks, hall, Bool.false_eq_true, if_false]
      rfl

theorem runChunks_stops (ok : DAGNode → Bool) :
    ∀ chunks (i : Nat) (hi : i < chunks.length),
      (chunks.get ⟨i, hi⟩).all ok = false →
      (runChunks ok chunks).1.length ≤ i + 1 := by
  intro chunks
  induction chunks with
  | nil => intro i hi; simp at hi
  | cons c rest ih =>
    intro i hi hfail
    by_cases hall : c.all ok
    · cases i with
      | zero =>
        simp only [List.get] at hfail
        rw [hall] at hfail
        cases hfail
      | succ j =>
        have hj : j < rest.length := by simpa using hi
        have := ih j hj (by simpa using hfail)
        simp only [runChunks, hall, if_true]
        rw [List.length_cons]
        omega
    · rw [Bool.not_eq_true] at hall
      simp [runChunks, hall]

/-- C6: if any node of the chunk at schedule position `i` fails, then no
chunk at a later schedule position (a later chunk of the same level, or any
chunk of a subsequent level) is ever started: execution covers only a prefix
of the schedule of length at most `j` for every `j > i`. -/
theorem executeDAG_fail_fast (dag : List DAGNode) (k : Nat) (ok : DAGNode → Bool)
    (i j : Nat) (hj : j < (executeSchedule dag k).length) (hij : i < j)
    (hfail : ∃ n ∈ (executeSchedule dag k).get ⟨i, Nat.lt_trans hij hj⟩, ok n = false) :
    (executeDAG dag k ok).1.length ≤ j ∧
    (executeDAG dag k ok).1 =
      (executeSchedule dag k).take (executeDAG dag k ok).1.length := by
  obtain ⟨n, hn, hnot⟩ := hfail
  have hall : ((executeSchedule dag k).get ⟨i, Nat.lt_trans hij hj⟩).all ok = false := by
    cases hca : ((executeSchedule dag k).get ⟨i, Nat.lt_trans hij hj⟩).all ok
    · rfl
    · have := List.all_eq_true.mp hca n hn
      rw [hnot] at this
      cases this
  have hstop := runChunks_stops ok (executeSchedule dag k) i (Nat.lt_trans hij hj) hall
  exact ⟨by rw [executeDAG]; omega, runChunks_take ok _⟩

/-- Witness for C6: two level-0 nodes at concurrency 1; the first chunk's
node fails, so only that chunk is started. -/
theorem executeDAG_fail_fast_witness :
    (executeDAG [⟨"issue-1", 1, "A", [], 0⟩, ⟨"issue-2", 2, "B", [], 0⟩] 1
        (fun n => !(n.number == 1))).1.length ≤ 1 :=
  (executeDAG_fail_fast [⟨"issue-1", 1, "A", [], 0⟩, ⟨"issue-2", 2, "B", [], 0⟩] 1
    (fun n => !(n.number == 1)) 0 1 (by decide) (by decide)
    ⟨⟨"issue-1", 1, "A", [], 0⟩, by decide, by decide⟩).1

theorem filter_orderedInsert (L : Nat) (a : DAGNode) :
    ∀ l : List DAGNode,
      (l.orderedInsert levelLe a).filter (fun n => n.level == L) =
        if a.level = L then a :: l.filter (fun n => n.level == L)
        else l.filter (fun n => n.level == L) := by
  intro l
  induction l with
  | nil =>
    by_cases haL : a.level = L <;>
      simp [List.orderedInsert, List.filter_cons, haL, beq_iff_eq]
  | cons b l ih =>
    rw [List.orderedInsert]
    by_cases hab : levelLe a b
    · rw [if_pos hab]
      by_cases haL : a.level = L <;> by_cases hbL : b.level = L <;>
        simp [List.filter_cons, haL, hbL]
    · rw [if_neg hab]
      simp only [levelLe] at hab
      push_neg at hab
      by_cases haL : a.level = L
      · have hbL : ¬b.level = L := by omega
        simp [List.filter_cons, haL, hbL, ih]
      · by_cases hbL : b.level = L <;> simp [List.filter_cons, haL, hbL, ih]

theorem filter_insertionSort (L : Nat) :
    ∀ l : List DAGNode,
      (l.insertionSort levelLe).filter (fun n => n.level == L) =
        l.filter (fun n => n.level == L) := by
  intro l
  induction l with
  | nil => rfl
  | cons x l ih =>
    rw [List.insertionSort, filter_orderedInsert]
    by_cases hxL : x.level = L
    · rw [if_pos hxL, ih, List.filter_cons, if_pos (by simp [hxL])]
    · rw [if_neg hxL, ih, List.filter_cons, if_neg (by simp [hxL])]

theorem setLevels_map_number (lvl : String → Nat) :
    ∀ l : List DAGNode,
      (setLevels lvl l).map (fun n => n.number) = l.map (fun n => n.number) := by
  intro l
  induction l with
  | nil => rfl
  | cons n rest ih =>
    rw [setLevels]
    split_ifs <;> simp [ih]

theorem preLeveled_eq (issues : List Issue) (pre : List DAGNode)
    (h : preLeveled issues = some pre) :
    ∃ σ : LevelState, pre = setLevels σ.lvl (buildNodes issues) := by
  simp only [preLeveled] at h
  cases hr : runLevels (depsOfNodes (buildNodes issues)) ((allIds (buildNodes issues)).card + 1)
      ((buildNodes issues).map (fun n => n.id)) ⟨[], fun _ => 0⟩ with
  | none => rw [hr] at h; cases h
  | some σ =>
    rw [hr] at h
    simp only [Option.some.injEq] at h
    exact ⟨σ, h.symm⟩

/-- C3: the node list returned by `buildDAG` is sorted in non-decreasing
order of level, and nodes sharing a level appear in the order the
corresponding tasks were supplied: filtering the output at any level yields
exactly the corresponding filtering of the pre-sort node list, which lists
the tasks in input order. -/
theorem buildDAG_sorted_stable (issues : List Issue) (out pre : List DAGNode)
    (hpre : preLeveled issues = some pre) (hout : buildDAG issues = some out) :
    (∀ i (h : i + 1 < out.length),
      (out.get ⟨i, Nat.lt_of_succ_lt h⟩).level ≤ (out.get ⟨i + 1, h⟩).level) ∧
    (∀ L, out.filter (fun n => n.level == L) = pre.filter (fun n => n.level == L)) ∧
    pre.map (fun n => n.number) = issues.map (fun i => i.number) := by
  have hout2 : out = pre.insertionSort levelLe := by
    rw [buildDAG, hpre] at hout
    simp only [Option.map_some', Option.some.injEq] at hout
    exact hout.symm
  obtain ⟨σ, hpre2⟩ := preLeveled_eq issues pre hpre
  refine ⟨?_, ?_, ?_⟩
  · intro i h
    have hs : List.Sorted levelLe out := by
      rw [hout2]; exact List.sorted_insertionSort levelLe pre
    exact List.pairwise_iff_get.mp hs ⟨i, Nat.lt_of_succ_lt h⟩ ⟨i + 1, h⟩
      (by exact Nat.lt_succ_self i)
  · intro L
    rw [hout2, filter_insertionSort]
  · rw [hpre2, setLevels_map_number]
    simp [buildNodes]

/-- Witness for C3: a level-1 task supplied before a level-0 task is placed
after it in the output, and the level-1 slice of the output preserves input
order. -/
theorem buildDAG_sorted_stable_witness :
    ([⟨"issue-1", 1, "A", [], 0⟩, ⟨"issue-2", 2, "B", ["issue-1"], 1⟩] :
        List DAGNode).filter (fun n => n.level == 1) =
      ([⟨"issue-2", 2, "B", ["issue-1"], 1⟩, ⟨"issue-1", 1, "A", [], 0⟩] :
        List DAGNode).filter (fun n => n.level == 1) :=
  (buildDAG_sorted_stable
    [⟨2, "B", "Relates to #1", [], "open"⟩, ⟨1, "A", "", [], "open"⟩]
    [⟨"issue-1", 1, "A", [], 0⟩, ⟨"issue-2", 2, "B", ["issue-1"], 1⟩]
    [⟨"issue-2", 2, "B", ["issue-1"], 1⟩, ⟨"issue-1", 1, "A", [], 0⟩]
    (by decide) (by decide)).2.1 1

/-! ### Totality of the DFS (fuel sufficiency) -/

theorem card_unvisited_cons (U : Finset String) (nid : String) (visited : List String)
    (hmem : nid ∈ U) (hnv : nid ∉ visited) :
    (U.filter (fun x => x ∉ nid :: visited)).card <
      (U.filter (fun x => x ∉ visited)).card := by
  have hsub : U.filter (fun x => x ∉ nid :: visited) =
      (U.filter (fun x => x ∉ visited)).erase nid := by
    ext x
    simp only [Finset.mem_filter, Finset.mem_erase, List.mem_cons]
    constructor
    · rintro ⟨hxU, hx⟩
      push_neg at hx
      exact ⟨hx.1, hxU, hx.2⟩
    · rintro ⟨hne, hxU, hx⟩
      refine ⟨hxU, ?_⟩
      push_neg
      exact ⟨hne, hx⟩
  rw [hsub]
  have hmem2 : nid ∈ U.filter (fun x => x ∉ visited) := Finset.mem_filter.mpr ⟨hmem, hnv⟩
  have hpos : 0 < (U.filter (fun x => x ∉ visited)).card :=
    Finset.card_pos.mpr ⟨nid, hmem2⟩
  rw [Finset.card_erase_of_mem hmem2]
  omega

theorem card_unvisited_mono (U : Finset String) (v1 v2 : List String)
    (h : ∀ x ∈ v1, x ∈ v2) :
    (U.filter (fun x => x ∉ v2)).card ≤ (U.filter (fun x => x ∉ v1)).card := by
  apply Finset.card_le_card
  intro x hx
  rw [Finset.mem_filter] at hx ⊢
  exact ⟨hx.1, fun hc => hx.2 (h x hc)⟩

theorem calcList_total (f : String → LevelState → Option (Nat × LevelState))
    (U : Finset String) (bound : Nat)
    (hf : ∀ nid σ, nid ∈ U → (U.filter (fun x => x ∉ σ.visited)).card < bound →
      ∃ v σ', f nid σ = some (v, σ') ∧ (∀ x ∈ σ.visited, x ∈ σ'.visited) ∧
        nid ∈ σ'.visited ∧ (∀ x ∈ σ.visited, σ'.lvl x = σ.lvl x)) :
    ∀ (ds : List String) (σ : LevelState), (∀ d ∈ ds, d ∈ U) →
      (U.filter (fun x => x ∉ σ.visited)).card < bound →
      ∃ vs σ', calcList f ds σ = some (vs, σ') ∧
        (∀ x ∈ σ.visited, x ∈ σ'.visited) ∧
        (∀ d ∈ ds, d ∈ σ'.visited) ∧
        (∀ x ∈ σ.visited, σ'.lvl x = σ.lvl x) := by
  intro ds
  induction ds with
  | nil =>
    intro σ _ _
    exact ⟨[], σ, rfl, fun x h => h, by simp, fun x _ => rfl⟩
  | cons d ds ih =>
    intro σ hds hcard
    obtain ⟨v, σ1, hf1, hmono1, hd1, hlvl1⟩ := hf d σ (hds d (by simp)) hcard
    have hcard1 : (U.filter (fun x => x ∉ σ1.visited)).card < bound :=
      lt_of_le_of_lt (card_unvisited_mono U _ _ hmono1) hcard
    obtain ⟨vs, σ2, hrec, hmono2, hall2, hlvl2⟩ :=
      ih σ1 (fun d' hd' => hds d' (by simp [hd'])) hcard1
    refine ⟨v :: vs, σ2, ?_, fun x hx => hmono2 x (hmono1 x hx), ?_, fun x hx => ?_⟩
    · simp only [calcList, hf1, hrec]
    · intro d' hd'
      rcases List.mem_cons.mp hd' with rfl | hd'
      · exact hmono2 _ hd1
      · exact hall2 _ hd'
    · rw [hlvl2 x (hmono1 x hx), hlvl1 x hx]

theorem calcLevel_total (depsOf : String → Option (List String)) (U : Finset String)
    (hU : ∀ nid ds, depsOf nid = some ds → ∀ d ∈ ds, d ∈ U) :
    ∀ (fuel : Nat) (nid : String) (σ : LevelState), nid ∈ U →
      (U.filter (fun x => x ∉ σ.visited)).card < fuel →
      ∃ v σ', calcLevel depsOf fuel nid σ = some (v, σ') ∧
        (∀ x ∈ σ.visited, x ∈ σ'.visited) ∧ nid ∈ σ'.visited ∧
        (∀ x ∈ σ.visited, σ'.lvl x = σ.lvl x) := by
  intro fuel
  induction fuel with
  | zero =>
    intro nid σ _ hcard
    exact absurd hcard (Nat.not_lt_zero _)
  | succ fuel ih =>
    intro nid σ hnid hcard
    by_cases hv : nid ∈ σ.visited
    · exact ⟨_, σ, by rw [calcLevel, if_pos hv], fun x h => h, hv, fun x _ => rfl⟩
    · have hcard1 : (U.filter (fun x =>
          x ∉ (LevelState.mk (nid :: σ.visited) σ.lvl).visited)).card < fuel := by
        show (U.filter (fun x => x ∉ nid :: σ.visited)).card < fuel
        have := card_unvisited_cons U nid σ.visited hnid hv
        omega
      cases hdeps : depsOf nid with
      | none =>
        refine ⟨0, ⟨nid :: σ.visited, σ.lvl⟩, ?_, ?_, by simp, fun x _ => rfl⟩
        · rw [calcLevel, if_neg hv]
          simp only [hdeps]
        · intro x hx; exact List.mem_cons_of_mem _ hx
      | some ds =>
        cases ds with
        | nil =>
          refine ⟨0, setLvl ⟨nid :: σ.visited, σ.lvl⟩ nid 0, ?_, ?_, by simp [setLvl], ?_⟩
          · rw [calcLevel, if_neg hv]
            simp only [hdeps]
          · intro x hx; exact List.mem_cons_of_mem _ hx
          · intro x hx
            have hne : x ≠ nid := fun hc => hv (hc ▸ hx)
            simp [setLvl, hne]
        | cons d ds' =>
          obtain ⟨vs, σ2, hcl, hmono, hall, hlvl⟩ :=
            calcList_total (fun d' σ' => calcLevel depsOf fuel d' σ') U fuel ih
              (d :: ds') ⟨nid :: σ.visited, σ.lvl⟩ (hU nid _ hdeps) hcard1
          refine ⟨maxList vs + 1, setLvl σ2 nid (maxList vs + 1), ?_, ?_, ?_, ?_⟩
          · rw [calcLevel, if_neg hv]
            simp only [hdeps, hcl]
          · intro x hx
            have : x ∈ (LevelState.mk (nid :: σ.visited) σ.lvl).visited :=
              List.mem_cons_of_mem _ hx
            simpa [setLvl] using hmono x this
          · have : nid ∈ (LevelState.mk (nid :: σ.visited) σ.lvl).visited := by simp
            simpa [setLvl] using hmono nid this
          · intro x hx
            have hne : x ≠ nid := fun hc => hv (hc ▸ hx)
            have hx1 : x ∈ (LevelState.mk (nid :: σ.visited) σ.lvl).visited :=
              List.mem_cons_of_mem _ hx
            simp only [setLvl, hne, if_neg hne]
            exact hlvl x hx1

theorem runLevels_total (depsOf : String → Option (List String)) (U : Finset String)
    (hU : ∀ nid ds, depsOf nid = some ds → ∀ d ∈ ds, d ∈ U) (fuel : Nat) :
    ∀ (ids : List String) (σ : LevelState), (∀ x ∈ ids, x ∈ U) →
      (U.filter (fun x => x ∉ σ.visited)).card < fuel →
      ∃ σ', runLevels depsOf fuel ids σ = some σ' ∧
        (∀ x ∈ σ.visited, x ∈ σ'.visited) ∧ (∀ x ∈ ids, x ∈ σ'.visited) := by
  intro ids
  induction ids with
  | nil =>
    intro σ _ _
    exact ⟨σ, rfl, fun x h => h, by simp⟩
  | cons nid rest ih =>
    intro σ hids hcard
    obtain ⟨v, σ1, heq, hmono, hvis, _⟩ :=
      calcLevel_total depsOf U hU fuel nid σ (hids nid (by simp)) hcard
    have hcard1 : (U.filter (fun x => x ∉ σ1.visited)).card < fuel :=
      lt_of_le_of_lt (card_unvisited_mono U _ _ hmono) hcard
    obtain ⟨σ', heq', hmono', hvis'⟩ := ih σ1 (fun x hx => hids x (by simp [hx])) hcard1
    refine ⟨σ', ?_, fun x hx => hmono' x (hmono x hx), ?_⟩
    · rw [runLevels, heq]
      exact heq'
    · intro x hx
      rcases List.mem_cons.mp hx with rfl | hx
      · exact hmono' x hvis
      · exact hvis' x hx

theorem mapLookup_mem {nodes : List DAGNode} {nid : String} {m : DAGNode}
    (h : mapLookup nodes nid = some m) : m ∈ nodes ∧ m.id = nid := by
  rw [mapLookup] at h
  have hmem : m ∈ nodes.filter (fun n => n.id == nid) := by
    obtain ⟨hne, heq⟩ := List.mem_getLast?_eq_getLast (Option.mem_def.mpr h)
    rw [heq]
    exact List.getLast_mem hne
  have := List.mem_filter.mp hmem
  exact ⟨this.1, by simpa using this.2⟩

theorem allIds_spec (nodes : List DAGNode) :
    (∀ n ∈ nodes, n.id ∈ allIds nodes) ∧
    (∀ nid ds, depsOfNodes nodes nid = some ds → ∀ d ∈ ds, d ∈ allIds nodes) := by
  constructor
  · intro n hn
    rw [allIds, List.mem_toFinset, List.mem_append]
    exact Or.inl (List.mem_map.mpr ⟨n, hn, rfl⟩)
  · intro nid ds hds d hd
    rw [depsOfNodes] at hds
    cases hml : mapLookup nodes nid with
    | none => rw [hml] at hds; cases hds
    | some m =>
      rw [hml] at hds
      simp only [Option.map_some', Option.some.injEq] at hds
      have hm := (mapLookup_mem hml).1
      rw [allIds, List.mem_toFinset, List.mem_append]
      refine Or.inr (List.mem_flatten.mpr ⟨m.dependencies, ?_, hds ▸ hd⟩)
      exact List.mem_map.mpr ⟨m, hm, rfl⟩

theorem preLeveled_total (issues : List Issue) :
    ∃ σ : LevelState, preLeveled issues = some (setLevels σ.lvl (buildNodes issues)) := by
  obtain ⟨hids, hU⟩ := allIds_spec (buildNodes issues)
  obtain ⟨σ', heq, _, _⟩ := runLevels_total (depsOfNodes (buildNodes issues))
    (allIds (buildNodes issues)) hU ((allIds (buildNodes issues)).card + 1)
    ((buildNodes issues).map (fun n => n.id)) ⟨[], fun _ => 0⟩
    (fun x hx => by
      obtain ⟨n, hn, rfl⟩ := List.mem_map.mp hx
      exact hids n hn)
    (by
      show (Finset.filter (fun x => x ∉ ([] : List String))
        (allIds (buildNodes issues))).card < (allIds (buildNodes issues)).card + 1
      have := Finset.card_filter_le (allIds (buildNodes issues))
        (fun x => x ∉ ([] : List String))
      omega)
  refine ⟨σ', ?_⟩
  simp only [preLeveled]
  rw [heq]

/-- C9: `buildDAG` is total — for every input, including cyclic dependency
references, it returns one node per input task (same multiset of task
numbers) without error; on the concrete 2-cycle the visited-set guard cuts
the cycle and yields under-computed levels instead of an exception. -/
theorem buildDAG_total (issues : List Issue) :
    ∃ out, buildDAG issues = some out ∧ out.length = issues.length ∧
      (out.map (fun n => n.number)).Perm (issues.map (fun i => i.number)) ∧
      buildDAG [⟨1, "A", "depends: #2", [], "open"⟩, ⟨2, "B", "depends: #1", [], "open"⟩] =
        some [⟨"issue-2", 2, "B", ["issue-1"], 1⟩, ⟨"issue-1", 1, "A", ["issue-2"], 2⟩] := by
  obtain ⟨σ, hpre⟩ := preLeveled_total issues
  have hnum : ((setLevels σ.lvl (buildNodes issues)).map (fun n => n.number)) =
      issues.map (fun i => i.number) := by
    rw [setLevels_map_number]
    simp [buildNodes]
  refine ⟨(setLevels σ.lvl (buildNodes issues)).insertionSort levelLe, ?_, ?_, ?_, by decide⟩
  · rw [buildDAG, hpre]
    rfl
  · rw [List.length_insertionSort]
    have hlen := congrArg List.length hnum
    simp only [List.length_map] at hlen
    exact hlen
  · have hperm := (List.perm_insertionSort levelLe
      (setLevels σ.lvl (buildNodes issues))).map (fun n => n.number)
    rw [hnum] at hperm
    exact hperm

/-! ### Injectivity of the synthetic node ids -/

theorem digitChar_val {m : Nat} (h : m < 10) :
    (Nat.digitChar m).toNat - '0'.toNat = m := by
  interval_cases m <;> decide

theorem toDigitsCore_foldl (fuel : Nat) :
    ∀ (n : Nat) (acc : List Char), n < 10 ^ fuel →
      (Nat.toDigitsCore 10 fuel n acc).foldl
          (fun a c => a * 10 + (c.toNat - '0'.toNat)) 0 =
        acc.foldl (fun a c => a * 10 + (c.toNat - '0'.toNat)) n := by
  induction fuel with
  | zero =>
    intro n acc h
    have hn : n = 0 := by simpa using h
    subst hn
    rfl
  | succ fuel ih =>
    intro n acc h
    simp only [Nat.toDigitsCore]
    by_cases hn : n / 10 = 0
    · rw [if_pos hn]
      have hlt : n < 10 := by omega
      rw [List.foldl_cons, Nat.zero_mul, Nat.zero_add,
        digitChar_val (Nat.mod_lt _ (by norm_num)), Nat.mod_eq_of_lt hlt]
    · rw [if_neg hn]
      have hdiv : n / 10 < 10 ^ fuel := by
        rw [Nat.pow_succ] at h
        exact Nat.div_lt_of_lt_mul (by linarith)
      rw [ih (n / 10) _ hdiv, List.foldl_cons,
        digitChar_val (Nat.mod_lt _ (by norm_num)), Nat.div_add_mod']

theorem digitsToNat_repr (n : Nat) : digitsToNat (Nat.repr n).data = n := by
  have hbound : n < 10 ^ (n + 1) := by
    calc n < 2 ^ n := Nat.lt_two_pow n
    _ ≤ 10 ^ n := Nat.pow_le_pow_left (by norm_num) n
    _ ≤ 10 ^ (n + 1) := Nat.pow_le_pow_right (by norm_num) (Nat.le_succ n)
  have : (Nat.repr n).data = Nat.toDigitsCore 10 (n + 1) n [] := rfl
  rw [digitsToNat, this, toDigitsCore_foldl (n + 1) n [] hbound]
  rfl

theorem mkNodeId_injective : Function.Injective mkNodeId := by
  intro a b h
  have hdata : ("issue-".data ++ (Nat.repr a).data) =
      ("issue-".data ++ (Nat.repr b).data) := by
    have := congrArg String.data h
    simpa [mkNodeId, String.data_append] using this
  have hrepr : (Nat.repr a).data = (Nat.repr b).data :=
    List.append_cancel_left hdata
  have := congrArg digitsToNat hrepr
  rwa [digitsToNat_repr, digitsToNat_repr] at this

theorem buildNodes_id_nodup {issues : List Issue}
    (h : (issues.map (fun i => i.number)).Nodup) :
    ((buildNodes issues).map (fun n => n.id)).Nodup := by
  have heq : (buildNodes issues).map (fun n => n.id) =
      (issues.map (fun i => i.number)).map mkNodeId := by
    simp [buildNodes, List.map_map]
  rw [heq]
  exact h.map mkNodeId_injective

/-! ### Lookup lemmas under unique ids -/

theorem mapLookup_self {nodes : List DAGNode}
    (hnodup : (nodes.map (fun n => n.id)).Nodup) {m : DAGNode} (hm : m ∈ nodes) :
    mapLookup nodes m.id = some m := by
  rw [mapLookup]
  induction nodes with
  | nil => cases hm
  | cons n rest ih =>
    rw [List.map_cons, List.nodup_cons] at hnodup
    rcases List.mem_cons.mp hm with rfl | hm2
    · have hrest : rest.filter (fun x => x.id == m.id) = [] := by
        rw [List.filter_eq_nil_iff]
        intro x hx hc
        exact hnodup.1 (List.mem_map.mpr ⟨x, hx, beq_iff_eq.mp hc⟩)
      rw [List.filter_cons, if_pos (by simp), hrest]
      rfl
    · have hne : ¬(n.id == m.id) = true := by
        intro hc
        exact hnodup.1 (List.mem_map.mpr ⟨m, hm2, (beq_iff_eq.mp hc).symm⟩)
      rw [List.filter_cons, if_neg hne]
      exact ih hnodup.2 hm2

theorem find?_self {l : List DAGNode}
    (hnodup : (l.map (fun n => n.id)).Nodup) {m : DAGNode} (hm : m ∈ l) :
    l.find? (fun n => n.id == m.id) = some m := by
  induction l with
  | nil => cases hm
  | cons n rest ih =>
    rw [List.map_cons, List.nodup_cons] at hnodup
    rcases List.mem_cons.mp hm with rfl | hm2
    · rw [List.find?_cons_of_pos _ (by simp)]
    · have hne : ¬((fun x : DAGNode => x.id == m.id) n) = true := by
        intro hc
        exact hnodup.1 (List.mem_map.mpr ⟨m, hm2, (beq_iff_eq.mp hc).symm⟩)
      rw [List.find?_cons_of_neg rest hne]
      exact ih hnodup.2 hm2

theorem le_maxList {l : List Nat} {x : Nat} (h : x ∈ l) : x ≤ maxList l := by
  induction l with
  | nil => cases h
  | cons a l ih =>
    rcases List.mem_cons.mp h with rfl | h
    · exact le_max_left _ _
    · exact le_trans (ih h) (le_max_right _ _)

theorem setLevels_eq_map {lvl : String → Nat} :
    ∀ {l : List DAGNode}, (l.map (fun n => n.id)).Nodup →
      setLevels lvl l = l.map (fun m => { m with level := lvl m.id }) := by
  intro l
  induction l with
  | nil => intro _; rfl
  | cons n rest ih =>
    intro hnodup
    rw [List.map_cons, List.nodup_cons] at hnodup
    rw [setLevels, List.map_cons, ih hnodup.2, if_pos]
    rw [List.all_eq_true]
    intro m hm
    simp only [Bool.not_eq_true', beq_eq_false_iff_ne, ne_eq]
    intro hc
    exact hnodup.1 (List.mem_map.mpr ⟨m, hm, hc⟩)

theorem setLevels_map_id (lvl : String → Nat) :
    ∀ l : List DAGNode, (setLevels lvl l).map (fun n => n.id) = l.map (fun n => n.id) := by
  intro l
  induction l with
  | nil => rfl
  | cons n rest ih =>
    rw [setLevels]
    split_ifs <;> simp [ih]

/-! ### Correctness of the memoized DFS on acyclic inputs -/

theorem resolvedLvl_congr {depsOf : String → Option (List String)}
    {σ σ' : LevelState} {d : String} (h : σ'.lvl d = σ.lvl d) :
    resolvedLvl depsOf σ' d = resolvedLvl depsOf σ d := by
  rw [resolvedLvl, resolvedLvl]
  cases depsOf d <;> simp [h]

theorem calcList_correct (depsOf : String → Option (List String))
    (f : String → LevelState → Option (Nat × LevelState))
    (U : Finset String) (bound : Nat) (G' : List String)
    (hf : ∀ nid σ, nid ∈ U → (U.filter (fun x => x ∉ σ.visited)).card < bound →
      DFSInv depsOf σ G' → (∀ g ∈ G', ¬Relation.ReflTransGen (Edge depsOf) nid g) →
      ∃ v σ', f nid σ = some (v, σ') ∧ CalcOut depsOf σ σ' nid v ∧
        DFSInv depsOf σ' G') :
    ∀ (ds : List String) (σ : LevelState),
      (∀ d ∈ ds, d ∈ U ∧ ∀ g ∈ G', ¬Relation.ReflTransGen (Edge depsOf) d g) →
      (U.filter (fun x => x ∉ σ.visited)).card < bound →
      DFSInv depsOf σ G' →
      ∃ vs σ', calcList f ds σ = some (vs, σ') ∧
        CalcListOut depsOf σ σ' ds vs ∧ DFSInv depsOf σ' G' := by
  intro ds
  induction ds with
  | nil =>
    intro σ _ _ hinv
    exact ⟨[], σ, rfl,
      ⟨fun x h => h, by simp, fun x _ => rfl, rfl, fun x hx hnx => absurd hx hnx⟩, hinv⟩
  | cons d ds ih =>
    intro σ hds hcard hinv
    obtain ⟨v, σ1, hf1, ho1, hinv1⟩ :=
      hf d σ (hds d (by simp)).1 hcard hinv (hds d (by simp)).2
    have hcard1 : (U.filter (fun x => x ∉ σ1.visited)).card < bound :=
      lt_of_le_of_lt (card_unvisited_mono U _ _ ho1.mono) hcard
    obtain ⟨vs, σ2, hrec, ho2, hinv2⟩ :=
      ih σ1 (fun d' hd' => hds d' (by simp [hd'])) hcard1 hinv1
    refine ⟨v :: vs, σ2, by simp only [calcList, hf1, hrec], ?_, hinv2⟩
    refine ⟨fun x hx => ho2.mono x (ho1.mono x hx), ?_,
      fun x hx => by rw [ho2.stable x (ho1.mono x hx), ho1.stable x hx], ?_, ?_⟩
    · intro d' hd'
      rcases List.mem_cons.mp hd' with rfl | hd'
      · exact ho2.mono _ ho1.visited_self
      · exact ho2.deps_visited _ hd'
    · rw [List.map_cons]
      congr 1
      · rw [ho1.value]
        exact (resolvedLvl_congr (ho2.stable d ho1.visited_self)).symm
      · exact ho2.values
    · intro x hx hnx
      by_cases hx1 : x ∈ σ1.visited
      · exact ⟨d, by simp, ho1.reach_new x hx1 hnx⟩
      · obtain ⟨d', hd', hr⟩ := ho2.reach_new x hx hx1
        exact ⟨d', by simp [hd'], hr⟩

theorem calcLevel_correct (depsOf : String → Option (List String)) (U : Finset String)
    (hU : ∀ nid ds, depsOf nid = some ds → nid ∈ U ∧ ∀ d ∈ ds, d ∈ U)
    (hacyc : Acyclic depsOf) :
    ∀ (fuel : Nat) (nid : String) (σ : LevelState) (G : List String), nid ∈ U →
      (U.filter (fun x => x ∉ σ.visited)).card < fuel →
      DFSInv depsOf σ G →
      (∀ g ∈ G, ¬Relation.ReflTransGen (Edge depsOf) nid g) →
      ∃ v σ', calcLevel depsOf fuel nid σ = some (v, σ') ∧
        CalcOut depsOf σ σ' nid v ∧ DFSInv depsOf σ' G := by
  intro fuel
  induction fuel with
  | zero =>
    intro nid σ G _ hcard _ _
    exact absurd hcard (Nat.not_lt_zero _)
  | succ fuel ih =>
    intro nid σ G hnid hcard hinv hreach
    by_cases hv : nid ∈ σ.visited
    · refine ⟨resolvedLvl depsOf σ nid, σ, ?_, ?_, hinv⟩
      · rw [calcLevel, if_pos hv]
        cases hd : depsOf nid <;> simp [resolvedLvl, hd]
      · exact ⟨fun x h => h, hv, fun x _ => rfl, rfl, fun x hx hnx => absurd hx hnx⟩
    · have hcard1 : (U.filter (fun x =>
          x ∉ (LevelState.mk (nid :: σ.visited) σ.lvl).visited)).card < fuel := by
        show (U.filter (fun x => x ∉ nid :: σ.visited)).card < fuel
        have := card_unvisited_cons U nid σ.visited hnid hv
        omega
      cases hdeps : depsOf nid with
      | none =>
        refine ⟨0, ⟨nid :: σ.visited, σ.lvl⟩, ?_, ?_, ?_⟩
        · rw [calcLevel, if_neg hv]
          simp only [hdeps]
        · refine ⟨fun x hx => List.mem_cons_of_mem _ hx, by simp,
            fun x _ => rfl, by simp [resolvedLvl, hdeps], ?_⟩
          intro x hx hnx
          rcases List.mem_cons.mp hx with rfl | hx
          · exact Relation.ReflTransGen.refl
          · exact absurd hx hnx
        · refine ⟨fun g hg => List.mem_cons_of_mem _ (hinv.grey_visited g hg), ?_, ?_⟩
          · intro x hx hxG
            rcases List.mem_cons.mp hx with rfl | hx
            · intro ds hds
              rw [hdeps] at hds
              cases hds
            · exact hinv.done_correct x hx hxG
          · intro x ds hds hx hxG dd hdd
            rcases List.mem_cons.mp hx with rfl | hx
            · rw [hdeps] at hds
              cases hds
            · exact List.mem_cons_of_mem _
                (hinv.done_deps_visited x ds hds hx hxG dd hdd)
      | some ds =>
        cases ds with
        | nil =>
          refine ⟨0, setLvl ⟨nid :: σ.visited, σ.lvl⟩ nid 0, ?_, ?_, ?_⟩
          · rw [calcLevel, if_neg hv]
            simp only [hdeps]
          · refine ⟨fun x hx => List.mem_cons_of_mem _ hx, by simp [setLvl], ?_,
              ?_, ?_⟩
            · intro x hx
              have hne : x ≠ nid := fun hc => hv (hc ▸ hx)
              simp [setLvl, hne]
            · simp [resolvedLvl, hdeps, setLvl]
            · intro x hx hnx
              rcases List.mem_cons.mp hx with rfl | hx
              · exact Relation.ReflTransGen.refl
              · exact absurd hx hnx
          · refine ⟨fun g hg => List.mem_cons_of_mem _ (hinv.grey_visited g hg), ?_, ?_⟩
            · intro x hx hxG
              rcases List.mem_cons.mp hx with rfl | hx
              · intro ds2 hds2
                rw [hdeps] at hds2
                injection hds2 with hds2
                subst hds2
                exact ⟨fun _ => by simp [setLvl], fun hc => absurd rfl hc⟩
              · have hcorr := hinv.done_correct x hx hxG
                have hne : x ≠ nid := fun hc => hv (hc ▸ hx)
                intro ds2 hds2
                obtain ⟨hc1, hc2⟩ := hcorr ds2 hds2
                have hlvlx : (setLvl ⟨nid :: σ.visited, σ.lvl⟩ nid 0).lvl x = σ.lvl x := by
                  simp [setLvl, hne]
                refine ⟨fun h0 => by rw [hlvlx]; exact hc1 h0, fun h0 => ?_⟩
                rw [hlvlx, hc2 h0]
                congr 1
                congr 1
                apply List.map_congr_left
                intro dd hdd
                apply resolvedLvl_congr
                have hddv : dd ∈ σ.visited :=
                  hinv.done_deps_visited x ds2 hds2 hx hxG dd hdd
                have hddne : dd ≠ nid := fun hc => hv (hc ▸ hddv)
                simp [setLvl, hddne]
            · intro x ds2 hds2 hx hxG dd hdd
              rcases List.mem_cons.mp hx with rfl | hx
              · rw [hdeps] at hds2
                injection hds2 with hds2
                subst hds2
                cases hdd
              · exact List.mem_cons_of_mem _
                  (hinv.done_deps_visited x ds2 hds2 hx hxG dd hdd)
        | cons d0 ds' =>
          have hG' : ∀ d' ∈ d0 :: ds', d' ∈ U ∧
              ∀ g ∈ nid :: G, ¬Relation.ReflTransGen (Edge depsOf) d' g := by
            intro d' hd'
            refine ⟨(hU nid _ hdeps).2 d' hd', ?_⟩
            intro g hg hr
            have hedge : Edge depsOf nid d' := ⟨_, hdeps, hd'⟩
            rcases List.mem_cons.mp hg with rfl | hg
            · exact hacyc g (Relation.TransGen.head' hedge hr)
            · exact hreach g hg (Relation.ReflTransGen.head hedge hr)
          have hinv1 : DFSInv depsOf ⟨nid :: σ.visited, σ.lvl⟩ (nid :: G) := by
            refine ⟨?_, ?_, ?_⟩
            · intro g hg
              rcases List.mem_cons.mp hg with rfl | hg
              · simp
              · exact List.mem_cons_of_mem _ (hinv.grey_visited g hg)
            · intro x hx hxG
              have hxG2 : x ∉ G := fun hc => hxG (List.mem_cons_of_mem _ hc)
              have hxne : x ≠ nid := fun hc => hxG (by rw [hc]; exact List.mem_cons_self _ _)
              rcases List.mem_cons.mp hx with rfl | hx
              · exact absurd rfl hxne
              · exact hinv.done_correct x hx hxG2
            · intro x ds2 hds2 hx hxG dd hdd
              have hxG2 : x ∉ G := fun hc => hxG (List.mem_cons_of_mem _ hc)
              have hxne : x ≠ nid := fun hc => hxG (by rw [hc]; exact List.mem_cons_self _ _)
              rcases List.mem_cons.mp hx with rfl | hx
              · exact absurd rfl hxne
              · exact List.mem_cons_of_mem _
                  (hinv.done_deps_visited x ds2 hds2 hx hxG2 dd hdd)
          obtain ⟨vs, σ2, hcl, hout, hinv2⟩ := calcList_correct depsOf
            (fun d' σ' => calcLevel depsOf fuel d' σ') U fuel (nid :: G)
            (fun nid' σ' h1 h2 h3 h4 => ih nid' σ' (nid :: G) h1 h2 h3 h4)
            (d0 :: ds') ⟨nid :: σ.visited, σ.lvl⟩ hG' hcard1 hinv1
          have hdep_ne : ∀ d' ∈ d0 :: ds', d' ≠ nid := by
            intro d' hd' hc
            have hedge : Edge depsOf nid d' := ⟨_, hdeps, hd'⟩
            rw [hc] at hedge
            exact hacyc nid (Relation.TransGen.single hedge)
          have hvisF : ∀ x, x ∈ σ2.visited →
              x ∈ (setLvl σ2 nid (maxList vs + 1)).visited := fun x hx => hx
          refine ⟨maxList vs + 1, setLvl σ2 nid (maxList vs + 1), ?_, ?_, ?_⟩
          · rw [calcLevel, if_neg hv]
            simp only [hdeps, hcl]
          · refine ⟨?_, ?_, ?_, ?_, ?_⟩
            · intro x hx
              exact hvisF x (hout.mono x (List.mem_cons_of_mem _ hx))
            · exact hvisF nid (hout.mono nid (List.mem_cons_self _ _))
            · intro x hx
              have hne : x ≠ nid := fun hc => hv (hc ▸ hx)
              have : σ2.lvl x = σ.lvl x := hout.stable x (List.mem_cons_of_mem _ hx)
              simpa [setLvl, hne] using this
            · simp [resolvedLvl, hdeps, setLvl]
            · intro x hx hnx
              by_cases hx1 : x ∈ nid :: σ.visited
              · rcases List.mem_cons.mp hx1 with rfl | hx1
                · exact Relation.ReflTransGen.refl
                · exact absurd hx1 hnx
              · obtain ⟨d', hd', hr⟩ := hout.reach_new x hx hx1
                exact Relation.ReflTransGen.head ⟨_, hdeps, hd'⟩ hr
          · have hres : ∀ d' ∈ d0 :: ds',
                resolvedLvl depsOf (setLvl σ2 nid (maxList vs + 1)) d' =
                  resolvedLvl depsOf σ2 d' := by
              intro d' hd'
              apply resolvedLvl_congr
              simp [setLvl, hdep_ne d' hd']
            refine ⟨?_, ?_, ?_⟩
            · intro g hg
              exact hout.mono g (List.mem_cons_of_mem _ (hinv.grey_visited g hg))
            · intro x hx hxG
              by_cases hxn : x = nid
              · subst hxn
                intro ds2 hds2
                rw [hdeps] at hds2
                injection hds2 with hds2
                subst hds2
                refine ⟨fun hc => absurd hc (List.cons_ne_nil _ _), fun _ => ?_⟩
                have h1 : (setLvl σ2 x (maxList vs + 1)).lvl x = maxList vs + 1 := by
                  simp [setLvl]
                rw [h1]
                congr 1
                have hmapeq : (d0 :: ds').map
                      (resolvedLvl depsOf (setLvl σ2 x (maxList vs + 1))) =
                    (d0 :: ds').map (resolvedLvl depsOf σ2) :=
                  List.map_congr_left hres
                rw [hmapeq, ← hout.values]
              · have hxG' : x ∉ nid :: G := by
                  intro hc
                  rcases List.mem_cons.mp hc with hc1 | hc1
                  · exact hxn hc1
                  · exact hxG hc1
                have hcorr2 := hinv2.done_correct x hx hxG'
                intro ds2 hds2
                have hdeps_vis := hinv2.done_deps_visited x ds2 hds2 hx hxG'
                have hdd_ne : ∀ dd ∈ ds2, dd ≠ nid := by
                  intro dd hdd hc
                  subst hc
                  by_cases hxold : x ∈ σ.visited
                  · exact hv (hinv.done_deps_visited x ds2 hds2 hxold hxG dd hdd)
                  · have hx1 : x ∉ dd :: σ.visited := by
                      intro hc2
                      rcases List.mem_cons.mp hc2 with hc3 | hc3
                      · exact hxn hc3
                      · exact hxold hc3
                    obtain ⟨d', hd', hr⟩ := hout.reach_new x hx hx1
                    have hrnx : Relation.ReflTransGen (Edge depsOf) dd x :=
                      Relation.ReflTransGen.head ⟨_, hdeps, hd'⟩ hr
                    exact hacyc dd (Relation.TransGen.tail' hrnx ⟨_, hds2, hdd⟩)
                obtain ⟨hc1, hc2⟩ := hcorr2 ds2 hds2
                have hlvlx : (setLvl σ2 nid (maxList vs + 1)).lvl x = σ2.lvl x := by
                  simp [setLvl, hxn]
                refine ⟨fun h0 => by rw [hlvlx]; exact hc1 h0, fun h0 => ?_⟩
                rw [hlvlx, hc2 h0]
                congr 1
                congr 1
                apply List.map_congr_left
                intro dd hdd
                apply resolvedLvl_congr
                simp [setLvl, hdd_ne dd hdd]
            · intro x ds2 hds2 hx hxG dd hdd
              by_cases hxn : x = nid
              · subst hxn
                rw [hdeps] at hds2
                injection hds2 with hds2
                subst hds2
                exact hout.deps_visited dd hdd
              · have hxG' : x ∉ nid :: G := by
                  intro hc
                  rcases List.mem_cons.mp hc with hc1 | hc1
                  · exact hxn hc1
                  · exact hxG hc1
                exact hinv2.done_deps_visited x ds2 hds2 hx hxG' dd hdd

theorem runLevels_correct (depsOf : String → Option (List String)) (U : Finset String)
    (hU : ∀ nid ds, depsOf nid = some ds → nid ∈ U ∧ ∀ d ∈ ds, d ∈ U)
    (hacyc : Acyclic depsOf) (fuel : Nat) :
    ∀ (ids : List String) (σ : LevelState), (∀ x ∈ ids, x ∈ U) →
      (U.filter (fun x => x ∉ σ.visited)).card < fuel →
      DFSInv depsOf σ [] →
      ∃ σ', runLevels depsOf fuel ids σ = some σ' ∧ DFSInv depsOf σ' [] ∧
        (∀ x ∈ σ.visited, x ∈ σ'.visited) ∧ (∀ x ∈ ids, x ∈ σ'.visited) := by
  intro ids
  induction ids with
  | nil =>
    intro σ _ _ hinv
    exact ⟨σ, rfl, hinv, fun x h => h, by simp⟩
  | cons nid rest ih =>
    intro σ hids hcard hinv
    obtain ⟨v, σ1, heq, ho, hinv1⟩ := calcLevel_correct depsOf U hU hacyc fuel nid σ []
      (hids nid (by simp)) hcard hinv (by simp)
    have hcard1 : (U.filter (fun x => x ∉ σ1.visited)).card < fuel :=
      lt_of_le_of_lt (card_unvisited_mono U _ _ ho.mono) hcard
    obtain ⟨σ', heq', hinv', hmono', hvis'⟩ :=
      ih σ1 (fun x hx => hids x (by simp [hx])) hcard1 hinv1
    refine ⟨σ', ?_, hinv', fun x hx => hmono' x (ho.mono x hx), ?_⟩
    · rw [runLevels, heq]
      exact heq'
    · intro x hx
      rcases List.mem_cons.mp hx with rfl | hx
      · exact hmono' x ho.visited_self
      · exact hvis' x hx

theorem allIds_closure (nodes : List DAGNode) :
    ∀ nid ds, depsOfNodes nodes nid = some ds →
      nid ∈ allIds nodes ∧ ∀ d ∈ ds, d ∈ allIds nodes := by
  intro nid ds hds
  rw [depsOfNodes] at hds
  cases hml : mapLookup nodes nid with
  | none => rw [hml] at hds; cases hds
  | some m =>
    rw [hml] at hds
    simp only [Option.map_some', Option.some.injEq] at hds
    obtain ⟨hm, hmid⟩ := mapLookup_mem hml
    constructor
    · rw [← hmid]
      exact (allIds_spec nodes).1 m hm
    · intro d hd
      rw [allIds, List.mem_toFinset, List.mem_append]
      refine Or.inr (List.mem_flatten.mpr ⟨m.dependencies, ?_, hds ▸ hd⟩)
      exact List.mem_map.mpr ⟨m, hm, rfl⟩

/-- Shared core of C1 and C2: on acyclic input with unique task numbers,
every output node's level satisfies the local level equation, with each
dependency resolved to the level recorded in the output (0 for unresolvable
references). -/
theorem buildDAG_levels_core (issues : List Issue) (out : List DAGNode)
    (hnodup : (issues.map (fun i => i.number)).Nodup)
    (hacyc : IssuesAcyclic issues)
    (hout : buildDAG issues = some out) :
    ∀ n ∈ out,
      (n.dependencies = [] → n.level = 0) ∧
      (n.dependencies ≠ [] →
        n.level = maxList (n.dependencies.map (resolvedOutLvl issues out)) + 1) := by
  have hid : ((buildNodes issues).map (fun n => n.id)).Nodup := buildNodes_id_nodup hnodup
  obtain ⟨σF, hrun, hinvF, _, hvisF⟩ := runLevels_correct (depsOfNodes (buildNodes issues))
    (allIds (buildNodes issues)) (allIds_closure (buildNodes issues)) hacyc
    ((allIds (buildNodes issues)).card + 1)
    ((buildNodes issues).map (fun n => n.id)) ⟨[], fun _ => 0⟩
    (fun x hx => by
      obtain ⟨n, hn, rfl⟩ := List.mem_map.mp hx
      exact (allIds_spec (buildNodes issues)).1 n hn)
    (by
      show (Finset.filter (fun x => x ∉ ([] : List String))
        (allIds (buildNodes issues))).card < (allIds (buildNodes issues)).card + 1
      have := Finset.card_filter_le (allIds (buildNodes issues))
        (fun x => x ∉ ([] : List String))
      omega)
    ⟨fun g hg => absurd hg (List.not_mem_nil g),
      fun x hx _ => absurd hx (List.not_mem_nil x),
      fun x ds hds hx _ => absurd hx (List.not_mem_nil x)⟩
  have hpre : preLeveled issues = some (setLevels σF.lvl (buildNodes issues)) := by
    simp only [preLeveled]
    rw [hrun]
  have hout2 : out = (setLevels σF.lvl (buildNodes issues)).insertionSort levelLe := by
    rw [buildDAG, hpre] at hout
    simp only [Option.map_some', Option.some.injEq] at hout
    exact hout.symm
  have hsetid : (setLevels σF.lvl (buildNodes issues)).map (fun n => n.id) =
      (buildNodes issues).map (fun n => n.id) := setLevels_map_id σF.lvl (buildNodes issues)
  have houtid : (out.map (fun n => n.id)).Nodup := by
    have hperm := (List.perm_insertionSort levelLe
      (setLevels σF.lvl (buildNodes issues))).map (fun n => n.id)
    rw [hsetid] at hperm
    rw [hout2]
    exact hperm.nodup_iff.mpr hid
  have hres : ∀ d, resolvedLvl (depsOfNodes (buildNodes issues)) σF d =
      resolvedOutLvl issues out d := by
    intro d
    rw [resolvedLvl, resolvedOutLvl, presentIn]
    cases hd : depsOfNodes (buildNodes issues) d with
    | none => simp
    | some ds2 =>
      simp only [Option.isSome_some, if_pos]
      cases hml : mapLookup (buildNodes issues) d with
      | none => rw [depsOfNodes, hml] at hd; cases hd
      | some w =>
        obtain ⟨hw, hwid⟩ := mapLookup_mem hml
        have hw' : ({ w with level := σF.lvl w.id } : DAGNode) ∈ out := by
          rw [hout2, List.mem_insertionSort, setLevels_eq_map hid]
          exact List.mem_map.mpr ⟨w, hw, rfl⟩
        have hfind := find?_self houtid hw'
        rw [levelIn]
        have hfind2 : out.find? (fun n => n.id == d) =
            some { w with level := σF.lvl w.id } := by
          rw [← hwid]
          exact hfind
        rw [hfind2, ← hwid]
  intro n hn
  rw [hout2, List.mem_insertionSort, setLevels_eq_map hid] at hn
  obtain ⟨m, hm, rfl⟩ := List.mem_map.mp hn
  have hdeps : depsOfNodes (buildNodes issues) m.id = some m.dependencies := by
    rw [depsOfNodes, mapLookup_self hid hm]
    rfl
  have hvism : m.id ∈ σF.visited := hvisF m.id (List.mem_map.mpr ⟨m, hm, rfl⟩)
  obtain ⟨hc1, hc2⟩ := hinvF.done_correct m.id hvism (List.not_mem_nil _)
    m.dependencies hdeps
  constructor
  · intro hdep0
    exact hc1 hdep0
  · intro hdepne
    have hlv : ({ m with level := σF.lvl m.id } : DAGNode).level = σF.lvl m.id := rfl
    rw [hlv, hc2 hdepne]
    congr 1
    congr 1
    exact List.map_congr_left (fun d _ => hres d)

/-- C1: for an acyclic collection of tasks (with the data model's unique
ids), `buildDAG` gives every node without dependencies level 0, and every
node whose dependency set is non-empty and entirely resolvable the level
`1 + max(level of dependencies)`. -/
theorem buildDAG_level_formula (issues : List Issue) (out : List DAGNode)
    (hnodup : (issues.map (fun i => i.number)).Nodup)
    (hacyc : IssuesAcyclic issues)
    (hout : buildDAG issues = some out) :
    ∀ n ∈ out,
      (n.dependencies = [] → n.level = 0) ∧
      (n.dependencies ≠ [] → (∀ d ∈ n.dependencies, presentIn issues d = true) →
        n.level = 1 + maxList (n.dependencies.map (levelIn out))) := by
  intro n hn
  obtain ⟨h1, h2⟩ := buildDAG_levels_core issues out hnodup hacyc hout n hn
  refine ⟨h1, fun hne hpres => ?_⟩
  rw [h2 hne]
  have hmap : n.dependencies.map (resolvedOutLvl issues out) =
      n.dependencies.map (levelIn out) := by
    apply List.map_congr_left
    intro d hd
    rw [resolvedOutLvl, if_pos (hpres d hd)]
  rw [hmap]
  omega

/-- C2: for an acyclic collection of tasks (with the data model's unique
ids), every output node's level strictly exceeds the level of each of its
dependencies that is present in the node map. -/
theorem buildDAG_level_gt_deps (issues : List Issue) (out : List DAGNode)
    (hnodup : (issues.map (fun i => i.number)).Nodup)
    (hacyc : IssuesAcyclic issues)
    (hout : buildDAG issues = some out) :
    ∀ n ∈ out, ∀ d ∈ n.dependencies, presentIn issues d = true →
      levelIn out d < n.level := by
  intro n hn d hd hpres
  obtain ⟨h1, h2⟩ := buildDAG_levels_core issues out hnodup hacyc hout n hn
  have hne : n.dependencies ≠ [] := by
    intro hc
    rw [hc] at hd
    cases hd
  rw [h2 hne]
  have hmem : resolvedOutLvl issues out d ∈
      n.dependencies.map (resolvedOutLvl issues out) := List.mem_map.mpr ⟨d, hd, rfl⟩
  have hle := le_maxList hmem
  rw [resolvedOutLvl, if_pos hpres] at hle
  omega

/-- The concrete two-issue example used by the C1 and C2 witnesses is
acyclic: its only dependency edge goes from `issue-2` to `issue-1`. -/
theorem concrete_two_issue_acyclic :
    IssuesAcyclic [⟨1, "A", "", [], "open"⟩, ⟨2, "B", "Relates to #1", [], "open"⟩] := by
  rw [IssuesAcyclic, Acyclic]
  have hchar : ∀ a b, Edge (depsOfNodes (buildNodes
      [⟨1, "A", "", [], "open"⟩, ⟨2, "B", "Relates to #1", [], "open"⟩])) a b →
      a = "issue-2" ∧ b = "issue-1" := by
    intro a b hedge
    obtain ⟨ds, hds, hb⟩ := hedge
    by_cases ha2 : a = "issue-2"
    · subst ha2
      have hd2 : depsOfNodes (buildNodes
          [⟨1, "A", "", [], "open"⟩, ⟨2, "B", "Relates to #1", [], "open"⟩])
          "issue-2" = some ["issue-1"] := by decide
      rw [hd2] at hds
      injection hds with hds
      subst hds
      rcases List.mem_cons.mp hb with rfl | hb
      · exact ⟨rfl, rfl⟩
      · cases hb
    · by_cases ha1 : a = "issue-1"
      · subst ha1
        have hd1 : depsOfNodes (buildNodes
            [⟨1, "A", "", [], "open"⟩, ⟨2, "B", "Relates to #1", [], "open"⟩])
            "issue-1" = some [] := by decide
        rw [hd1] at hds
        injection hds with hds
        subst hds
        cases hb
      · have hbn : buildNodes [⟨1, "A", "", [], "open"⟩,
            ⟨2, "B", "Relates to #1", [], "open"⟩] =
            [⟨"issue-1", 1, "A", [], 0⟩, ⟨"issue-2", 2, "B", ["issue-1"], 0⟩] := by decide
        have hnone : depsOfNodes (buildNodes
            [⟨1, "A", "", [], "open"⟩, ⟨2, "B", "Relates to #1", [], "open"⟩]) a = none := by
          rw [depsOfNodes, mapLookup, hbn]
          have hfil : ([⟨"issue-1", 1, "A", [], 0⟩,
              ⟨"issue-2", 2, "B", ["issue-1"], 0⟩] : List DAGNode).filter
              (fun n => n.id == a) = [] := by
            rw [List.filter_eq_nil_iff]
            intro x hx hc
            have hxid := beq_iff_eq.mp hc
            rcases List.mem_cons.mp hx with rfl | hx
            · exact ha1 (by rw [← hxid])
            · rcases List.mem_cons.mp hx with rfl | hx
              · exact ha2 (by rw [← hxid])
              · cases hx
          rw [hfil]
          rfl
        rw [hnone] at hds
        cases hds
  intro x hx
  have hall : ∀ a b, Relation.TransGen (Edge (depsOfNodes (buildNodes
      [⟨1, "A", "", [], "open"⟩, ⟨2, "B", "Relates to #1", [], "open"⟩]))) a b →
      a = "issue-2" ∧ b = "issue-1" := by
    intro a b h
    induction h with
    | single h1 => exact hchar _ _ h1
    | tail _ hbc ih =>
      obtain ⟨hxx, hb1⟩ := ih
      obtain ⟨hb2, hc1⟩ := hchar _ _ hbc
      rw [hb1] at hb2
      exact absurd hb2 (by decide)
  obtain ⟨h1, h2⟩ := hall x x hx
  rw [h1] at h2
  exact absurd h2 (by decide)

/-- Witness for C1: in the two-issue example, the dependent node's level is
one more than the maximum of its dependency's recorded level. -/
theorem buildDAG_level_formula_witness :
    (⟨"issue-2", 2, "B", ["issue-1"], 1⟩ : DAGNode).level =
      1 + maxList ((⟨"issue-2", 2, "B", ["issue-1"], 1⟩ : DAGNode).dependencies.map
        (levelIn [⟨"issue-1", 1, "A", [], 0⟩, ⟨"issue-2", 2, "B", ["issue-1"], 1⟩])) :=
  (buildDAG_level_formula
    [⟨1, "A", "", [], "open"⟩, ⟨2, "B", "Relates to #1", [], "open"⟩]
    [⟨"issue-1", 1, "A", [], 0⟩, ⟨"issue-2", 2, "B", ["issue-1"], 1⟩]
    (by decide) concrete_two_issue_acyclic (by decide)
    ⟨"issue-2", 2, "B", ["issue-1"], 1⟩ (by decide)).2 (by decide) (by decide)

/-- Witness for C2: in the two-issue example, the dependency's level 0 is
strictly below the dependent node's level 1. -/
theorem buildDAG_level_gt_deps_witness :
    levelIn [⟨"issue-1", 1, "A", [], 0⟩, ⟨"issue-2", 2, "B", ["issue-1"], 1⟩]
        "issue-1" <
      (⟨"issue-2", 2, "B", ["issue-1"], 1⟩ : DAGNode).level :=
  buildDAG_level_gt_deps
    [⟨1, "A", "", [], "open"⟩, ⟨2, "B", "Relates to #1", [], "open"⟩]
    [⟨"issue-1", 1, "A", [], 0⟩, ⟨"issue-2", 2, "B", ["issue-1"], 1⟩]
    (by decide) concrete_two_issue_acyclic (by decide)
    ⟨"issue-2", 2, "B", ["issue-1"], 1⟩ (by decide) "issue-1" (by decide) (by decide)

end MiyabiExec
